import Mathlib

/-!
Verification of the form instance engine
(src/src/form/form-instance-factory.bak.js) against its specification.

The JavaScript engine is shallowly embedded: JS runtime values appearing in
the response model are `JsVal`; the mutable instance state (the response
model keyed by tag, plus the per-field dirty flags) is `St`, threaded
explicitly; the decorated field tree (fields with child fields and options,
each option owning child fields) is the mutual inductive `FTree` / `FForest`
/ `FOptList` / `FOpt`; the opaque collaborators (the expression evaluator,
the per-component `onUpdate` handler) are parameters gathered in
`Evaluator`; JS exceptions during construction become `Except FormError`.
-/

namespace FormEngine

/-- A JavaScript runtime value, restricted to the shapes the engine's model
store actually handles: `undefined`, `null`, `NaN`, booleans, (integral)
numbers, strings and arrays. -/
inductive JsVal where
  | undef
  | null
  | nan
  | bool (b : Bool)
  | num (n : Int)
  | str (s : String)
  | arr (elems : List JsVal)
deriving Repr

/-- JS `value === undefined`. -/
def isUndef : JsVal → Bool
  | .undef => true
  | _ => false

/-- JS `value === false` (strict equality against the boolean `false`). -/
def isFalseVal : JsVal → Bool
  | .bool false => true
  | _ => false

/-- JS `Number.isNaN(value)`: true only for the number `NaN`. -/
def isNaNVal : JsVal → Bool
  | .nan => true
  | _ => false

/-- lodash `_.isEmpty(value)`: `null`/`undefined`, booleans and numbers are
empty; strings and arrays are empty when they have length zero. -/
def jsIsEmpty : JsVal → Bool
  | .undef => true
  | .null => true
  | .nan => true
  | .bool _ => true
  | .num _ => true
  | .str s => s.isEmpty
  | .arr elems => elems.isEmpty

/-- Modelled from the spec: the helper `__blank` is imported from
`../common/common`, which is not under `src/`. Per the spec, a value is
blank when it is the empty string or absent (`undefined`/`null`). -/
def jsBlank : JsVal → Bool
  | .undef => true
  | .null => true
  | .str s => s.isEmpty
  | _ => false

/-- Modelled from the spec: the helper `hasValue` is imported from
`../common/common`, which is not under `src/`. Per the spec, a field "holds
a value" exactly when the value is not absent (`undefined`/`null`). -/
def hasValueB : JsVal → Bool
  | .undef => false
  | .null => false
  | _ => true

/-- JS `x.toString()` on an option id (option ids are strings or numbers in
practice; the remaining cases follow JS `String(x)` coercion). -/
def toStringVal : JsVal → String
  | .undef => "undefined"
  | .null => "null"
  | .nan => "NaN"
  | .bool b => if b then "true" else "false"
  | .num n => toString n
  | .str s => s
  | .arr _ => ""

/-- Substring test used for lodash `_.includes` on a string collection. -/
def strContains (hay needle : String) : Bool :=
  (List.range (hay.length + 1)).any (fun i => needle.isPrefixOf (hay.drop i))

/-- lodash `_.includes(collection, target)` for a string target: membership
(SameValueZero) for arrays, substring search for strings, `false` for every
non-collection value (including `undefined`). -/
def jsIncludes (v : JsVal) (target : String) : Bool :=
  match v with
  | .arr elems => elems.any (fun e =>
      match e with
      | .str s => s == target
      | _ => false)
  | .str s => strContains s target
  | _ => false

/-- The field `type` strings of `DATA_TYPE` (form-const). `OTHER` stands for
any type string outside the enumerated ones; the engine's switch sends
`DATE`, `STRING` and every other (or missing) type to its default branch. -/
inductive DType where
  | BOOLEAN
  | NUMBER
  | ARRAY
  | DATE
  | STRING
  | OTHER
deriving DecidableEq, Repr

/-- A model entry `{value, fieldType?, definitionId?}`: the provenance keys
are present exactly when the written field carried a `definition`. -/
structure ModelValue where
  value : JsVal
  fieldType : Option JsVal
  definitionId : Option JsVal
deriving Repr

/-- Replace the value at a key of an association list (keeping its
position, as JS property assignment does), or append the binding. -/
def setKey {α : Type} : List (String × α) → String → α → List (String × α)
  | [], k, v => [(k, v)]
  | (k', v') :: rest, k, v =>
      if k' == k then (k, v) :: rest else (k', v') :: setKey rest k v

/-- Remove a key from an association list (JS `delete obj[k]`). -/
def eraseKey {α : Type} (l : List (String × α)) (k : String) : List (String × α) :=
  l.filter (fun p => p.1 != k)

/-- The mutable instance state: the response model `this.model` (tag to
model entry) and the per-field `dirty` flags, keyed by the field's tag. -/
structure St where
  model : List (String × ModelValue)
  dirty : List (String × Bool)
deriving Repr

/-- The static data of one decorated field, apart from its children and
options: its tag (the key it is registered under), its `type` (absent when
the schema omitted it), its `id`, the `calc` flag, the optional
`showCondition`, the optional `defaultValueConditions` list, and the
optional `definition` back-reference carrying `(type, definitionId)`.
Expression specifications are opaque to the engine and represented by
`Nat` handles interpreted by the evaluator collaborator. -/
structure FNodeData where
  tag : String
  ftype : Option DType
  fid : String
  calcFlag : Bool
  showCondition : Option Nat
  dvcs : Option (List (Nat × Nat))
  definition : Option (JsVal × JsVal)
deriving Repr

mutual
/-- A decorated field: its node data, its child `fields` and its `options`. -/
inductive FTree where
  | node (d : FNodeData) (children : FForest) (opts : FOptList)
deriving Repr

/-- A collection of fields keyed by tag (each tree carries its key). -/
inductive FForest where
  | nil
  | cons (f : FTree) (rest : FForest)
deriving Repr

/-- The ordered list of a field's options. -/
inductive FOptList where
  | nil
  | cons (o : FOpt) (rest : FOptList)
deriving Repr

/-- One option: its `id`, its own `defaultValueConditions` (each condition a
pair of expression handles `(condition, expression)`), and its child
`fields`. -/
inductive FOpt where
  | mk (id : JsVal) (odvcs : List (Nat × Nat)) (fields : FForest)
deriving Repr
end

def FTree.ndata : FTree → FNodeData
  | .node d _ _ => d

def FTree.tagOf (f : FTree) : String := f.ndata.tag

def FTree.children : FTree → FForest
  | .node _ cs _ => cs

def FTree.opts : FTree → FOptList
  | .node _ _ os => os

def FForest.toList : FForest → List FTree
  | .nil => []
  | .cons f rest => f :: rest.toList

def FOptList.toList : FOptList → List FOpt
  | .nil => []
  | .cons o rest => o :: rest.toList

def FOpt.idOf : FOpt → JsVal
  | .mk i _ _ => i

def FOpt.odvcs : FOpt → List (Nat × Nat)
  | .mk _ l _ => l

def FOpt.fieldsOf : FOpt → FForest
  | .mk _ _ fs => fs

/-- `getModelValue(tag)`: unwrap the stored envelope's `value`, or return
the raw absent representation (`undefined`) when no envelope exists. -/
def getModelValue (s : St) (tag : String) : JsVal :=
  match List.lookup tag s.model with
  | some mv => mv.value
  | none => JsVal.undef

/-- The dirty flag of the field keyed by `tag` (unset flags read falsy). -/
def getDirty (s : St) (tag : String) : Bool :=
  (List.lookup tag s.dirty).getD false

/-- The envelope written by a set: `{value}` plus `fieldType`/`definitionId`
exactly when the field carries a `definition`. -/
def mkModelValue (d : FNodeData) (v : JsVal) : ModelValue :=
  { value := v
    fieldType := d.definition.map Prod.fst
    definitionId := d.definition.map Prod.snd }

/-- The unconditional head of `setModelValue`: delete the entry and reset
the dirty flag when the value is `undefined`, otherwise store the envelope
and set the dirty flag. -/
def baseWrite (tag : String) (v : JsVal) (d : FNodeData) (s : St) : St :=
  if isUndef v then
    { model := eraseKey s.model tag, dirty := setKey s.dirty tag false }
  else
    { model := setKey s.model tag (mkModelValue d v), dirty := setKey s.dirty tag true }

/-- The type-specific emptiness switch of `setModelValue` deciding whether a
composite field's children are cleared: BOOLEAN clears on `value === false`,
NUMBER on `Number.isNaN(value)`, ARRAY on `_.isEmpty(value)`, and DATE,
STRING and every other (or missing) type on `__blank(value)`. -/
def childClearCond (ftype : Option DType) (v : JsVal) : Bool :=
  match ftype with
  | some .BOOLEAN => isFalseVal v
  | some .NUMBER => isNaNVal v
  | some .ARRAY => jsIsEmpty v
  | _ => jsBlank v

mutual
/-- `setModelValue(tag, value, field)`: the base write, then the option
children clear (`__clearOptionChildren`), then the type-conditioned
composite children clear. -/
def setModelValue (tag : String) (v : JsVal) (f : FTree) (s : St) : St :=
  match f with
  | .node d cs os =>
      let s2 := clearOptionChildren v os (baseWrite tag v d s)
      if childClearCond d.ftype v then clearFields cs s2 else s2

/-- `__clearOptionChildren(options, value)`: for each option whose
stringified id is not included in the value, clear its child fields. -/
def clearOptionChildren (v : JsVal) (os : FOptList) (s : St) : St :=
  match os with
  | .nil => s
  | .cons (.mk oid _ ofields) rest =>
      let s1 := if jsIncludes v (toStringVal oid) then s else clearFields ofields s
      clearOptionChildren v rest s1

/-- `__clearFields(fields)`: clear (set to `undefined`) each field of the
collection that currently holds a model value. -/
def clearFields (fs : FForest) (s : St) : St :=
  match fs with
  | .nil => s
  | .cons f rest =>
      let s1 := if hasValueB (getModelValue s f.tagOf) then setModelValue f.tagOf JsVal.undef f s else s
      clearFields rest s1
end

mutual
/-- All tags occurring in a field's subtree, starting with its own. -/
def tagsT : FTree → List String
  | .node d cs os => d.tag :: (tagsF cs ++ tagsO os)

/-- All tags occurring in a field collection. -/
def tagsF : FForest → List String
  | .nil => []
  | .cons f rest => tagsT f ++ tagsF rest

/-- All tags occurring under an option list. -/
def tagsO : FOptList → List String
  | .nil => []
  | .cons (.mk _ _ ofields) rest => tagsF ofields ++ tagsO rest
end

/-- The tags strictly below a field: those of its children and of its
options' children. -/
def strictSubTags (f : FTree) : List String :=
  tagsF f.children ++ tagsO f.opts

/-- The child fields owned by an option list, in option order. -/
def optChildTrees : FOptList → List FTree
  | .nil => []
  | .cons (.mk _ _ ofields) rest => ofields.toList ++ optChildTrees rest

/-- The fields decoration visits strictly below a field, in visit order:
its children, then each option's children. -/
def childTrees (f : FTree) : List FTree :=
  f.children.toList ++ optChildTrees f.opts

/-- The opaque collaborators: the expression evaluator
(`evalCondition`/`evalExpression` take the live instance — here the state —
as evaluation context) and the per-component `onUpdate` handler used for
ARRAY-typed default values (given the field, the current model value and
the candidate value). -/
structure Evaluator where
  evalCondition : Nat → St → Bool
  evalExpression : Nat → St → JsVal
  onUpdate : FTree → JsVal → JsVal → JsVal

/-- `evaluateShowCondition(field, tag)`: `true` with no side effect when
there is no condition; otherwise delegate to the evaluator, and on a false
condition clear the field's non-blank model value as a side effect. Returns
the condition's outcome together with the possibly-updated state. -/
def evaluateShowCondition (ev : Evaluator) (f : FTree) (tag : String) (s : St) : Bool × St :=
  match f.ndata.showCondition with
  | none => (true, s)
  | some c =>
      let showField := ev.evalCondition c s
      if showField then (true, s)
      else if jsBlank (getModelValue s tag) then (false, s)
      else (false, setModelValue tag JsVal.undef f s)

/-- The value a default-value condition writes: its expression's value,
passed through the field's `onUpdate` handler (with the current model
value) when the field's type is ARRAY. -/
def dvcValue (ev : Evaluator) (tag : String) (f : FTree) (c : Nat × Nat) (s : St) : JsVal :=
  let v := ev.evalExpression c.2 s
  if f.ndata.ftype = some DType.ARRAY then ev.onUpdate f (getModelValue s tag) v else v

/-- One default-value condition `{condition, expression}`: when the guard
holds in the current state, write the (possibly merged) value via
`setModelValue`; otherwise leave the state unchanged. -/
def dvcStep (ev : Evaluator) (tag : String) (f : FTree) (s : St) (c : Nat × Nat) : St :=
  if ev.evalCondition c.1 s then setModelValue tag (dvcValue ev tag f c s) f s else s

/-- Run a list of default-value conditions over one target field, in
declared order. -/
def runDVC (ev : Evaluator) (tag : String) (f : FTree) (cs : List (Nat × Nat)) (s : St) : St :=
  cs.foldl (dvcStep ev tag f) s

/-- The conditions evaluated for a field: its own `defaultValueConditions`
when it defines them, otherwise the flattened union of its options'. -/
def resolveDVCs (f : FTree) : List (Nat × Nat) :=
  match f.ndata.dvcs with
  | some l => l
  | none => (f.opts.toList.map FOpt.odvcs).flatten

/-- The body of `evaluateDefaultValueConditions` for one dependent tag. -/
def evalDVCOne (ev : Evaluator) (tag : String) (f : FTree) (s : St) : St :=
  runDVC ev tag f (resolveDVCs f) s

/-- `evaluateDefaultValueConditions(tags)` over the instance's field index;
`none` models the crash on a tag with no registered field. -/
def evaluateDefaultValueConditions (ev : Evaluator) (flds : List (String × FTree))
    (tags : List String) (s : St) : Option St :=
  tags.foldlM (fun st tag =>
    match List.lookup tag flds with
    | some f => some (evalDVCOne ev tag f st)
    | none => none) s

/-- The definition's three dependency maps (expression specifications are
opaque handles). -/
structure FormDefMaps where
  calcExpressionMap : List (String × Nat)
  calcTriggerMap : List (String × List String)
  defaultValueTriggerMap : List (String × List String)

/-- `triggerDefaultValueEvaluation(tag)`: look up the default-value trigger
map and evaluate the dependent tags' conditions when an entry exists. -/
def triggerDefaultValueEvaluation (ev : Evaluator) (maps : FormDefMaps)
    (flds : List (String × FTree)) (tag : String) (s : St) : Option St :=
  match List.lookup tag maps.defaultValueTriggerMap with
  | some tags => evaluateDefaultValueConditions ev flds tags s
  | none => some s

/-- `calculateFields(field)`: when the field's `calc` flag is set, walk the
tag list of `calcTriggerMap[field.id]`; for each tag with an entry in
`calcExpressionMap`, evaluate it, write the result via `setModelValue` with
`getField(tag)`, and immediately run the default-value cascade for that
tag. Tags without an expression entry are skipped. -/
def calculateFields (ev : Evaluator) (maps : FormDefMaps) (flds : List (String × FTree))
    (f : FTree) (s : St) : Option St :=
  if f.ndata.calcFlag then
    ((List.lookup f.ndata.fid maps.calcTriggerMap).getD []).foldlM (fun st tag =>
      match List.lookup tag maps.calcExpressionMap with
      | some e =>
          let v := ev.evalExpression e st
          match List.lookup tag flds with
          | some tf => triggerDefaultValueEvaluation ev maps flds tag (setModelValue tag v tf st)
          | none => none
      | none => some st) s
  else some s

/-- Written from the claim's words, for comparison with `calculateFields`:
the step for one dependent tag — skip it when it has no entry in
`calcExpressionMap`; otherwise evaluate that expression with the instance
as context, write the result via `setModelValue(tag, value, getField(tag))`
and immediately invoke the default-value cascade for that same tag. -/
def calcCascadeStepSpec (ev : Evaluator) (maps : FormDefMaps) (flds : List (String × FTree))
    (st : St) (tag : String) : Option St :=
  match List.lookup tag maps.calcExpressionMap with
  | none => some st
  | some e =>
      match List.lookup tag flds with
      | none => none
      | some tf =>
          triggerDefaultValueEvaluation ev maps flds tag
            (setModelValue tag (ev.evalExpression e st) tf st)

/-- Written from the claim's words, for comparison with `calculateFields`:
for a field with the `calc` flag, iterate the steps over the tag list
`calcTriggerMap[field.id]`; for a field without the flag, do nothing. -/
def calcCascadeSpec (ev : Evaluator) (maps : FormDefMaps) (flds : List (String × FTree))
    (f : FTree) (s : St) : Option St :=
  if f.ndata.calcFlag then
    ((List.lookup f.ndata.fid maps.calcTriggerMap).getD []).foldlM
      (calcCascadeStepSpec ev maps flds) s
  else some s

/-- Modelled from the spec: the validation status scale of
`VALIDATION_CONST` (validation-const is not under `src/`), ordered
OK < WARNING < ERROR. -/
inductive VStatus where
  | OK
  | WARNING
  | ERROR
deriving DecidableEq, Repr

/-- Modelled from the spec: the severity rank of a status under the
ordering OK < WARNING < ERROR. -/
def sev : VStatus → Nat
  | .OK => 0
  | .WARNING => 1
  | .ERROR => 2

/-- Modelled from the spec: `ValidationService.isMoreSevereStatus(a, b)`
(validation-service is not under `src/`) — whether `a` is strictly more
severe than `b`. -/
def isMoreSevereStatus (a b : VStatus) : Bool :=
  sev b < sev a

/-- `getStatus(iterator, getStatus, useTag)`: reduce the collection against
a running maximum that starts at OK, replacing it only when an item's
status is strictly more severe. -/
def getStatus {α : Type} (items : List α) (statusOf : α → VStatus) : VStatus :=
  items.foldl (fun st x => if isMoreSevereStatus (statusOf x) st then statusOf x else st) .OK

/-- The tag keys of a field collection (the keys subsection iteration sees). -/
def rootTags (fs : FForest) : List String :=
  fs.toList.map FTree.tagOf

/-- A subsection: its fields, keyed by tag. -/
structure Subsec where
  fields : FForest

/-- A section: its sort order and its subsections. -/
structure Sec where
  sortOrder : Int
  subsections : List Subsec

/-- The schema: its ordered sections. -/
structure Schema where
  sections : List Sec

/-- `getSubsectionStatus(subsection)`: roll up over the subsection's fields
by tag. -/
def getSubsectionStatus (vr : String → VStatus) (ss : Subsec) : VStatus :=
  getStatus (rootTags ss.fields) vr

/-- `getSectionStatus(section)`: roll up over the section's subsections by
recursively applying the subsection rollup. -/
def getSectionStatus (vr : String → VStatus) (sec : Sec) : VStatus :=
  getStatus sec.subsections (getSubsectionStatus vr)

/-- A UI-schema entry: its `component.type` (opaque handle) when present,
plus its remaining annotation payload (opaque). -/
structure UiField where
  component : Option Nat
  other : Nat
deriving DecidableEq, Repr

/-- The construction errors: invalid definition/schema, duplicate tag,
missing field type. -/
inductive FormError where
  | invalidDefinition
  | duplicateTag (tag : String)
  | missingType
deriving DecidableEq, Repr

/-- `__addComponentToUiSchemaAndReturnUiField(tag, type)`: fetch or create
the UI-schema entry for the tag, set its `component` to `{type}`, and
return the updated schema together with the entry. -/
def addComponentToUiSchema (tag : String) (ty : Nat) (us : List (String × UiField)) :
    List (String × UiField) × UiField :=
  match List.lookup tag us with
  | some u =>
      let u2 := { u with component := some ty }
      (setKey us tag u2, u2)
  | none =>
      let u2 : UiField := { component := some ty, other := 0 }
      (setKey us tag u2, u2)

/-- The UI schema after the optional component-key override of
`__decorateField`: extended at the field's tag when a key is supplied,
untouched otherwise. -/
def uiAfterKey (key : Option Nat) (tag : String) (us : List (String × UiField)) :
    List (String × UiField) :=
  match key with
  | some ty => (addComponentToUiSchema tag ty us).1
  | none => us

mutual
/-- `__decorateField(field, tag, formComponentKey)` restricted to its
index/UI-schema effects: fail on an already-registered tag, fail on a
missing type, thread the UI-schema (extended only on the override path),
decorate the children and then each option's children, and finally register
the field itself. -/
def decorateField (key : Option Nat) (idx : List (String × FTree))
    (us : List (String × UiField)) (f : FTree) :
    Except FormError (List (String × FTree) × List (String × UiField)) :=
  match f with
  | .node d cs os =>
      if (List.lookup d.tag idx).isSome then .error (.duplicateTag d.tag)
      else if d.ftype.isNone then .error .missingType
      else
        match decorateForest idx (uiAfterKey key d.tag us) cs with
        | .error e => .error e
        | .ok (idx1, us2) =>
            match decorateOpts idx1 us2 os with
            | .error e => .error e
            | .ok (idx2, us3) => .ok (setKey idx2 d.tag (.node d cs os), us3)

/-- `__decorateChildren`: decorate each field of a collection in order. -/
def decorateForest (idx : List (String × FTree)) (us : List (String × UiField))
    (fs : FForest) : Except FormError (List (String × FTree) × List (String × UiField)) :=
  match fs with
  | .nil => .ok (idx, us)
  | .cons f rest =>
      match decorateField none idx us f with
      | .error e => .error e
      | .ok (idx1, us1) => decorateForest idx1 us1 rest

/-- The option loop of `__decorateField`: decorate each option's children
in order. -/
def decorateOpts (idx : List (String × FTree)) (us : List (String × UiField))
    (os : FOptList) : Except FormError (List (String × FTree) × List (String × UiField)) :=
  match os with
  | .nil => .ok (idx, us)
  | .cons (.mk _ _ ofields) rest =>
      match decorateForest idx us ofields with
      | .error e => .error e
      | .ok (idx1, us1) => decorateOpts idx1 us1 rest
end

/-- Decorate the fields of each subsection in order. -/
def decorateSubsections (idx : List (String × FTree)) (us : List (String × UiField)) :
    List Subsec → Except FormError (List (String × FTree) × List (String × UiField))
  | [] => .ok (idx, us)
  | ss :: rest =>
      match decorateForest idx us ss.fields with
      | .error e => .error e
      | .ok (idx1, us1) => decorateSubsections idx1 us1 rest

/-- Decorate the subsections of each section in order. -/
def decorateSections (idx : List (String × FTree)) (us : List (String × UiField)) :
    List Sec → Except FormError (List (String × FTree) × List (String × UiField))
  | [] => .ok (idx, us)
  | sec :: rest =>
      match decorateSubsections idx us sec.subsections with
      | .error e => .error e
      | .ok (idx1, us1) => decorateSections idx1 us1 rest

/-- Stable insertion of a section into a list sorted by `sortOrder`. -/
def insertBySortOrder (x : Sec) : List Sec → List Sec
  | [] => [x]
  | y :: ys => if x.sortOrder ≤ y.sortOrder then x :: y :: ys else y :: insertBySortOrder x ys

/-- lodash `_.sortBy(sections, 'sortOrder')`: a stable ascending sort. -/
def sortSections (l : List Sec) : List Sec :=
  l.foldr insertBySortOrder []

/-- The externally supplied form definition: the schema, the UI schema and
the dependency maps. `none` components model missing/empty objects. -/
structure FormDefn where
  schema : Option Schema
  uiSchema : List (String × UiField)
  maps : FormDefMaps

/-- A successfully constructed form instance: the engine's own (sorted)
copy of the sections, the flat tag index, and the definition as it stands
after construction. -/
structure FormInstance where
  sections : List Sec
  fields : List (String × FTree)
  definition : FormDefn

/-- The constructor of `Form` (via `FormInstanceFactory`): reject a
missing/empty definition or schema, deep-copy and sort the sections, then
decorate every field; any decoration error aborts construction. -/
def mkForm (defn : Option FormDefn) : Except FormError FormInstance :=
  match defn with
  | none => .error .invalidDefinition
  | some d =>
      match d.schema with
      | none => .error .invalidDefinition
      | some sch =>
          let sections := sortSections sch.sections
          match decorateSections [] d.uiSchema sections with
          | .error e => .error e
          | .ok (idx, us) =>
              .ok { sections := sections, fields := idx, definition := { d with uiSchema := us } }

/-- The tags that `__clearOptionChildren(options, value)` may touch: all
tags under the options whose stringified id is not included in the value. -/
def deselTags (v : JsVal) : FOptList → List String
  | .nil => []
  | .cons (.mk oid _ ofields) rest =>
      (if jsIncludes v (toStringVal oid) then [] else tagsF ofields) ++ deselTags v rest

/-- State `s2` refines state `s1` by deletions only: every model entry of
`s2` already stood in `s1`, and every raised dirty flag of `s2` was already
raised in `s1`. All the clearing cascades only shrink the state in this
sense. -/
def Shrinks (s2 s1 : St) : Prop :=
  (∀ t, List.lookup t s2.model = List.lookup t s1.model ∨ List.lookup t s2.model = none) ∧
    (∀ t, getDirty s2 t = true → getDirty s1 t = true)

mutual
/-- Every field in the subtree carries a `type`. -/
def typedT : FTree → Bool
  | .node d cs os => d.ftype.isSome && typedF cs && typedO os

def typedF : FForest → Bool
  | .nil => true
  | .cons f rest => typedT f && typedF rest

def typedO : FOptList → Bool
  | .nil => true
  | .cons (.mk _ _ ofields) rest => typedF ofields && typedO rest
end

/-- All fields of a field list carry a `type`, recursively. -/
def typedL (l : List FTree) : Bool :=
  l.all typedT

/-- No tag of the first subtree occurs in the second subtree. -/
def disjointTagsB (a b : FTree) : Bool :=
  (tagsT a).all (fun t => !((tagsT b).contains t))

/-- The subtrees of the list share no tag pairwise. -/
def pairwiseDisjB : List FTree → Bool
  | [] => true
  | a :: rest => rest.all (disjointTagsB a) && pairwiseDisjB rest

mutual
/-- Tag well-formedness below a field: the fields directly below it (its
children and its options' children) have pairwise tag-disjoint subtrees,
and each is recursively well-formed. A field sharing a tag with its own
descendant does not violate this predicate. -/
def goodT : FTree → Bool
  | .node _ cs os => pairwiseDisjB (FForest.toList cs ++ optChildTrees os) && goodF cs && goodO os

def goodF : FForest → Bool
  | .nil => true
  | .cons f rest => goodT f && goodF rest

def goodO : FOptList → Bool
  | .nil => true
  | .cons (.mk _ _ ofields) rest => goodF ofields && goodO rest
end

/-- Tag well-formedness of a top-level field list: pairwise tag-disjoint
subtrees, each recursively well-formed. Its failure means the list holds a
repeated tag between two fields neither of which is an ancestor of the
other. -/
def goodTopB (l : List FTree) : Bool :=
  pairwiseDisjB l && l.all goodT

/-- All tags of a field list, in traversal order. -/
def tagsL (l : List FTree) : List String :=
  (l.map tagsT).flatten

/-- Decoration of a plain list of fields, in order (the list counterpart of
`decorateForest`, used to relate the nested traversal to one flat field
sequence). -/
def decorateFieldList (idx : List (String × FTree)) (us : List (String × UiField)) :
    List FTree → Except FormError (List (String × FTree) × List (String × UiField))
  | [] => .ok (idx, us)
  | f :: rest =>
      match decorateField none idx us f with
      | .error e => .error e
      | .ok (idx1, us1) => decorateFieldList idx1 us1 rest

/-- The flat sequence of top-level fields construction decorates, in
traversal order: sections, then subsections, then fields. -/
def flattenSchema (secs : List Sec) : List FTree :=
  (secs.map (fun sec => (sec.subsections.map (fun ss => ss.fields.toList)).flatten)).flatten

mutual
/-- Node count of a subtree (used as a termination measure). -/
def sizeT : FTree → Nat
  | .node _ cs os => 1 + sizeF cs + sizeO os

def sizeF : FForest → Nat
  | .nil => 0
  | .cons f rest => sizeT f + sizeF rest

def sizeO : FOptList → Nat
  | .nil => 0
  | .cons (.mk _ _ ofields) rest => sizeF ofields + sizeO rest
end

/-- Node count of a field list. -/
def sizeL (l : List FTree) : Nat :=
  (l.map sizeT).sum

/-- Node data with a tag and a type and nothing else set (sample data). -/
def plainData (tag : String) (ty : Option DType) : FNodeData :=
  { tag := tag, ftype := ty, fid := tag, calcFlag := false, showCondition := none,
    dvcs := none, definition := none }

/-- A childless, optionless field (sample data). -/
def leafFld (tag : String) (ty : Option DType) : FTree :=
  .node (plainData tag ty) .nil .nil

/-- The empty instance state (sample data). -/
def stEmpty : St :=
  { model := [], dirty := [] }

/-- A bare model envelope (sample data). -/
def mv0 (v : JsVal) : ModelValue :=
  ⟨v, none, none⟩

/-- Sample field for the model-store claim: a NUMBER field carrying a
`definition`. -/
def wFld4 : FTree :=
  .node { plainData "a" (some .NUMBER) with definition := some (.str "T", .num 7) } .nil .nil

/-- Sample composite: a BOOLEAN field owning one STRING child. -/
def wFld2 : FTree :=
  .node (plainData "p" (some .BOOLEAN)) (.cons (leafFld "c" (some .STRING)) .nil) .nil

/-- Sample state where the child of `wFld2` holds a value. -/
def wSt2 : St :=
  { model := [("c", mv0 (.str "v"))], dirty := [] }

/-- Sample composite: an ARRAY field owning one STRING child. -/
def wFld10 : FTree :=
  .node (plainData "q" (some .ARRAY)) (.cons (leafFld "c" (some .STRING)) .nil) .nil

/-- Counterexample option (claim C3): id `"1"`, owning one valueless child
`x` that itself owns a grandchild `y`. -/
def cex3Opt : FOpt :=
  .mk (.str "1") []
    (.cons (.node (plainData "x" (some .STRING)) (.cons (leafFld "y" (some .STRING)) .nil) .nil) .nil)

/-- Counterexample field (claim C3): a STRING field owning `cex3Opt`. -/
def cex3Fld : FTree :=
  .node (plainData "p" (some .STRING)) .nil (.cons cex3Opt .nil)

/-- Counterexample state (claim C3): only the grandchild `y` holds a value. -/
def cex3St : St :=
  { model := [("y", mv0 (.str "keep"))], dirty := [] }

/-- Sample field with two options, each owning one child (claim C3). -/
def wFld3 : FTree :=
  .node (plainData "p" (some .STRING)) .nil
    (.cons (.mk (.str "1") [] (.cons (leafFld "c1" (some .STRING)) .nil))
      (.cons (.mk (.str "2") [] (.cons (leafFld "c2" (some .STRING)) .nil)) .nil))

/-- Sample state where both option children of `wFld3` hold values. -/
def wSt3 : St :=
  { model := [("c1", mv0 (.str "v1")), ("c2", mv0 (.str "v2"))], dirty := [] }

/-- Sample evaluator whose conditions always evaluate false. -/
def wEvFalse : Evaluator :=
  { evalCondition := fun _ _ => false
    evalExpression := fun _ _ => .undef
    onUpdate := fun _ _ v => v }

/-- Sample field with a show condition. -/
def wFld6 : FTree :=
  .node { plainData "s" (some .STRING) with showCondition := some 0 } .nil .nil

/-- Sample state where the field of `wFld6` holds a value. -/
def wSt6 : St :=
  { model := [("s", mv0 (.str "x"))], dirty := [] }

/-- Sample evaluator for the default-value cascade: condition handle 0 is
true, all others false; expression handle `e` evaluates to the number `e`. -/
def wEv5 : Evaluator :=
  { evalCondition := fun c _ => c == 0
    evalExpression := fun e _ => .num (Int.ofNat e)
    onUpdate := fun _ _ v => v }

/-- Empty dependency maps (sample data). -/
def wMaps0 : FormDefMaps :=
  { calcExpressionMap := [], calcTriggerMap := [], defaultValueTriggerMap := [] }

/-- Sample severity assignment: tag `"a"` is in error, every other tag OK. -/
def wVr7 (t : String) : VStatus :=
  if t == "a" then .ERROR else .OK

/-- Sample subsection with fields `a` and `b`. -/
def wSs7 : Subsec :=
  ⟨.cons (leafFld "a" (some .STRING)) (.cons (leafFld "b" (some .STRING)) .nil)⟩

/-- Counterexample field collection (claim C8): the single field `t` has a
child also tagged `t` — a repeated tag between a field and its own
descendant. -/
def cex8Forest : FForest :=
  .cons (.node (plainData "t" (some .STRING)) (.cons (leafFld "t" (some .STRING)) .nil) .nil) .nil

/-- Counterexample definition (claim C8), built over `cex8Forest`. -/
def cex8Defn : FormDefn :=
  { schema := some ⟨[⟨0, [⟨cex8Forest⟩]⟩]⟩
    uiSchema := []
    maps := wMaps0 }

/-- Witness definition (claim C8): two sibling fields share the tag `x`. -/
def wDefn8 : FormDefn :=
  { schema := some ⟨[⟨0, [⟨.cons (leafFld "x" (some .STRING))
      (.cons (leafFld "x" (some .NUMBER)) .nil)⟩]⟩]⟩
    uiSchema := []
    maps := wMaps0 }

/-- Witness definition (claim C9): one section, one subsection, one field. -/
def wDefn9 : FormDefn :=
  { schema := some ⟨[⟨0, [⟨.cons (leafFld "f" (some .STRING)) .nil⟩]⟩]⟩
    uiSchema := [("g", ⟨none, 3⟩)]
    maps := wMaps0 }

/-- The instance `mkForm` builds from `wDefn9` (sample data). -/
def wInst9 : FormInstance :=
  { sections := [⟨0, [⟨.cons (leafFld "f" (some .STRING)) .nil⟩]⟩]
    fields := [("f", leafFld "f" (some .STRING))]
    definition := wDefn9 }

theorem lookup_setKey_self {α : Type} (l : List (String × α)) (k : String) (v : α) :
    List.lookup k (setKey l k v) = some v := by
  induction l with
  | nil => simp [setKey, List.lookup]
  | cons p rest ih =>
      obtain ⟨k', v'⟩ := p
      by_cases h : k' = k
      · simp [setKey, h, List.lookup]
      · have hbeq : (k' == k) = false := by simpa using h
        simp only [setKey, hbeq, if_neg]
        simp only [List.lookup]
        have hbeq2 : (k == k') = false := by
          simp only [beq_eq_false_iff_ne, ne_eq]
          exact fun he => h he.symm
        simp [hbeq2, ih]

theorem lookup_setKey_ne {α : Type} (l : List (String × α)) (k t : String) (v : α)
    (h : t ≠ k) : List.lookup t (setKey l k v) = List.lookup t l := by
  have hf : (t == k) = false := by simpa using h
  induction l with
  | nil => simp [setKey, List.lookup, hf]
  | cons p rest ih =>
      obtain ⟨k', v'⟩ := p
      by_cases hk : k' = k
      · subst hk
        simp only [setKey, beq_self_eq_true, if_pos]
        simp [List.lookup, hf]
      · have hbeq : (k' == k) = false := by simpa using hk
        simp only [setKey, hbeq, if_neg]
        simp only [List.lookup]
        by_cases ht : t = k'
        · simp [ht]
        · have : (t == k') = false := by simpa using ht
          simp [this, ih]

theorem lookup_eraseKey_self {α : Type} (l : List (String × α)) (k : String) :
    List.lookup k (eraseKey l k) = none := by
  induction l with
  | nil => simp [eraseKey, List.lookup]
  | cons p rest ih =>
      obtain ⟨k', v'⟩ := p
      by_cases h : k' = k
      · simpa [eraseKey, h] using ih
      · have hbeq : (k' != k) = true := by simpa using h
        simp only [eraseKey, List.filter] at ih ⊢
        simp only [hbeq]
        simp only [List.lookup]
        have : (k == k') = false := by
          simp only [beq_eq_false_iff_ne, ne_eq]
          exact fun he => h he.symm
        simp [this, ih]

theorem lookup_eraseKey_ne {α : Type} (l : List (String × α)) (k t : String)
    (h : t ≠ k) : List.lookup t (eraseKey l k) = List.lookup t l := by
  induction l with
  | nil => simp [eraseKey]
  | cons p rest ih =>
      obtain ⟨k', v'⟩ := p
      by_cases hk : k' = k
      · subst hk
        have hbeq : (k' != k') = false := by simp
        simp only [eraseKey, List.filter, hbeq] at ih ⊢
        simp only [List.lookup]
        have : (t == k') = false := by simpa using h
        simp [this, ih]
      · have hbeq : (k' != k) = true := by simpa using hk
        simp only [eraseKey, List.filter, hbeq] at ih ⊢
        by_cases ht : t = k'
        · simp [List.lookup, ht]
        · have : (t == k') = false := by simpa using ht
          simp [List.lookup, this, ih]

theorem baseWrite_model_self (tag : String) (v : JsVal) (d : FNodeData) (s : St) :
    List.lookup tag (baseWrite tag v d s).model =
      if isUndef v then none else some (mkModelValue d v) := by
  unfold baseWrite
  cases h : isUndef v
  · simp [h, lookup_setKey_self]
  · simp [h, lookup_eraseKey_self]

theorem baseWrite_model_ne (tag : String) (v : JsVal) (d : FNodeData) (s : St)
    (t : String) (h : t ≠ tag) :
    List.lookup t (baseWrite tag v d s).model = List.lookup t s.model := by
  unfold baseWrite
  cases hv : isUndef v
  · simp [hv, lookup_setKey_ne _ _ _ _ h]
  · simp [hv, lookup_eraseKey_ne _ _ _ h]

theorem baseWrite_dirty_self (tag : String) (v : JsVal) (d : FNodeData) (s : St) :
    getDirty (baseWrite tag v d s) tag = !(isUndef v) := by
  unfold baseWrite getDirty
  cases h : isUndef v
  · simp [h, lookup_setKey_self]
  · simp [h, lookup_setKey_self]

theorem baseWrite_dirty_ne (tag : String) (v : JsVal) (d : FNodeData) (s : St)
    (t : String) (h : t ≠ tag) :
    getDirty (baseWrite tag v d s) t = getDirty s t := by
  unfold baseWrite getDirty
  cases hv : isUndef v
  · simp [hv, lookup_setKey_ne _ _ _ _ h]
  · simp [hv, lookup_setKey_ne _ _ _ _ h]

theorem tagsT_decomp (f : FTree) : tagsT f = f.tagOf :: strictSubTags f := by
  cases f
  rfl

mutual
theorem setModelValue_frame (tag : String) (v : JsVal) (f : FTree) (s : St) (t : String)
    (h1 : t ≠ tag) (h2 : t ∉ strictSubTags f) :
    List.lookup t (setModelValue tag v f s).model = List.lookup t s.model ∧
      getDirty (setModelValue tag v f s) t = getDirty s t :=
  match f with
  | .node d cs os => by
      simp only [strictSubTags, FTree.children, FTree.opts, List.mem_append, not_or] at h2
      obtain ⟨hcs, hos⟩ := h2
      simp only [setModelValue]
      have hb : List.lookup t (baseWrite tag v d s).model = List.lookup t s.model :=
        baseWrite_model_ne tag v d s t h1
      have hbd : getDirty (baseWrite tag v d s) t = getDirty s t :=
        baseWrite_dirty_ne tag v d s t h1
      have hoc := clearOptionChildren_frame v os (baseWrite tag v d s) t hos
      cases hc : childClearCond d.ftype v
      · simp only [hc, if_neg, Bool.false_eq_true, not_false_eq_true]
        exact ⟨hoc.1.trans hb, hoc.2.trans hbd⟩
      · simp only [hc, if_pos]
        have hcf := clearFields_frame cs (clearOptionChildren v os (baseWrite tag v d s)) t hcs
        exact ⟨hcf.1.trans (hoc.1.trans hb), hcf.2.trans (hoc.2.trans hbd)⟩

theorem clearOptionChildren_frame (v : JsVal) (os : FOptList) (s : St) (t : String)
    (h : t ∉ tagsO os) :
    List.lookup t (clearOptionChildren v os s).model = List.lookup t s.model ∧
      getDirty (clearOptionChildren v os s) t = getDirty s t :=
  match os with
  | .nil => by simp [clearOptionChildren]
  | .cons (.mk oid odv ofields) rest => by
      simp only [tagsO, List.mem_append, not_or] at h
      obtain ⟨hof, hrest⟩ := h
      simp only [clearOptionChildren]
      have h1 : List.lookup t
            (if jsIncludes v (toStringVal oid) then s else clearFields ofields s).model =
            List.lookup t s.model ∧
          getDirty (if jsIncludes v (toStringVal oid) then s else clearFields ofields s) t =
            getDirty s t := by
        cases hinc : jsIncludes v (toStringVal oid)
        · simp only [hinc, Bool.false_eq_true, if_neg, not_false_eq_true]
          exact clearFields_frame ofields s t hof
        · simp [hinc]
      have ih := clearOptionChildren_frame v rest
        (if jsIncludes v (toStringVal oid) then s else clearFields ofields s) t hrest
      exact ⟨ih.1.trans h1.1, ih.2.trans h1.2⟩

theorem clearFields_frame (fs : FForest) (s : St) (t : String) (h : t ∉ tagsF fs) :
    List.lookup t (clearFields fs s).model = List.lookup t s.model ∧
      getDirty (clearFields fs s) t = getDirty s t :=
  match fs with
  | .nil => by simp [clearFields]
  | .cons f rest => by
      simp only [tagsF, List.mem_append, not_or] at h
      obtain ⟨hf, hrest⟩ := h
      rw [tagsT_decomp f] at hf
      simp only [List.mem_cons, not_or] at hf
      obtain ⟨hft, hfs⟩ := hf
      simp only [clearFields]
      have h1 : List.lookup t
            (if hasValueB (getModelValue s f.tagOf) then setModelValue f.tagOf JsVal.undef f s
              else s).model = List.lookup t s.model ∧
          getDirty
            (if hasValueB (getModelValue s f.tagOf) then setModelValue f.tagOf JsVal.undef f s
              else s) t = getDirty s t := by
        cases hv : hasValueB (getModelValue s f.tagOf)
        · simp [hv]
        · simp only [hv, if_pos]
          exact setModelValue_frame f.tagOf JsVal.undef f s t hft hfs
      have ih := clearFields_frame rest
        (if hasValueB (getModelValue s f.tagOf) then setModelValue f.tagOf JsVal.undef f s
          else s) t hrest
      exact ⟨ih.1.trans h1.1, ih.2.trans h1.2⟩
end

theorem shrinks_refl (s : St) : Shrinks s s :=
  ⟨fun _ => Or.inl rfl, fun _ h => h⟩

theorem shrinks_trans {s3 s2 s1 : St} (h32 : Shrinks s3 s2) (h21 : Shrinks s2 s1) :
    Shrinks s3 s1 := by
  constructor
  · intro t
    rcases h32.1 t with h | h
    · rcases h21.1 t with h' | h'
      · exact Or.inl (h.trans h')
      · exact Or.inr (h.trans h')
    · exact Or.inr h
  · intro t h
    exact h21.2 t (h32.2 t h)

theorem shrinks_lookup_none {s2 s1 : St} (h : Shrinks s2 s1) {t : String}
    (hn : List.lookup t s1.model = none) : List.lookup t s2.model = none := by
  rcases h.1 t with h' | h'
  · exact h'.trans hn
  · exact h'

theorem shrinks_dirty_false {s2 s1 : St} (h : Shrinks s2 s1) {t : String}
    (hd : getDirty s1 t = false) : getDirty s2 t = false := by
  cases hq : getDirty s2 t
  · rfl
  · exact absurd (h.2 t hq) (by simp [hd])

theorem shrinks_hasValue_false {s2 s1 : St} (h : Shrinks s2 s1) {t : String}
    (hv : hasValueB (getModelValue s1 t) = false) :
    hasValueB (getModelValue s2 t) = false := by
  rcases h.1 t with h' | h'
  · unfold getModelValue
    rw [h']
    exact hv
  · unfold getModelValue
    rw [h']
    rfl

theorem shrinks_baseWrite_undef (tag : String) (d : FNodeData) (s : St) :
    Shrinks (baseWrite tag JsVal.undef d s) s := by
  constructor
  · intro t
    by_cases h : t = tag
    · subst h
      right
      simpa [isUndef] using baseWrite_model_self t JsVal.undef d s
    · exact Or.inl (baseWrite_model_ne tag JsVal.undef d s t h)
  · intro t ht
    by_cases h : t = tag
    · subst h
      rw [baseWrite_dirty_self] at ht
      simp [isUndef] at ht
    · rwa [baseWrite_dirty_ne tag JsVal.undef d s t h] at ht

mutual
theorem shrinks_setModelValue_undef (tag : String) (f : FTree) (s : St) :
    Shrinks (setModelValue tag JsVal.undef f s) s :=
  match f with
  | .node d cs os => by
      simp only [setModelValue]
      have hb := shrinks_baseWrite_undef tag d s
      have hoc := shrinks_clearOptionChildren JsVal.undef os (baseWrite tag JsVal.undef d s)
      cases hc : childClearCond d.ftype JsVal.undef
      · simp only [hc, Bool.false_eq_true, if_neg, not_false_eq_true]
        exact shrinks_trans hoc hb
      · simp only [hc, if_pos]
        exact shrinks_trans
          (shrinks_clearFields cs (clearOptionChildren JsVal.undef os (baseWrite tag JsVal.undef d s)))
          (shrinks_trans hoc hb)

theorem shrinks_clearOptionChildren (v : JsVal) (os : FOptList) (s : St) :
    Shrinks (clearOptionChildren v os s) s :=
  match os with
  | .nil => by
      simp only [clearOptionChildren]
      exact shrinks_refl s
  | .cons (.mk oid odv ofields) rest => by
      simp only [clearOptionChildren]
      have h1 : Shrinks (if jsIncludes v (toStringVal oid) then s else clearFields ofields s) s := by
        cases hinc : jsIncludes v (toStringVal oid)
        · simp only [hinc, Bool.false_eq_true, if_neg, not_false_eq_true]
          exact shrinks_clearFields ofields s
        · simp only [hinc, if_pos]
          exact shrinks_refl s
      exact shrinks_trans
        (shrinks_clearOptionChildren v rest
          (if jsIncludes v (toStringVal oid) then s else clearFields ofields s)) h1

theorem shrinks_clearFields (fs : FForest) (s : St) :
    Shrinks (clearFields fs s) s :=
  match fs with
  | .nil => by
      simp only [clearFields]
      exact shrinks_refl s
  | .cons f rest => by
      simp only [clearFields]
      have h1 : Shrinks
          (if hasValueB (getModelValue s f.tagOf) then setModelValue f.tagOf JsVal.undef f s
            else s) s := by
        cases hv : hasValueB (getModelValue s f.tagOf)
        · simp only [hv, Bool.false_eq_true, if_neg, not_false_eq_true]
          exact shrinks_refl s
        · simp only [hv, if_pos]
          exact shrinks_setModelValue_undef f.tagOf f s
      exact shrinks_trans
        (shrinks_clearFields rest
          (if hasValueB (getModelValue s f.tagOf) then setModelValue f.tagOf JsVal.undef f s
            else s)) h1
end

/-- The cascades following the base write of `setModelValue` only delete. -/
theorem shrinks_setModelValue_post (tag : String) (v : JsVal) (f : FTree) (s : St) :
    Shrinks (setModelValue tag v f s) (baseWrite tag v f.ndata s) := by
  cases f with
  | node d cs os =>
      simp only [setModelValue, FTree.ndata]
      have hoc := shrinks_clearOptionChildren v os (baseWrite tag v d s)
      cases hc : childClearCond d.ftype v
      · simp only [hc, Bool.false_eq_true, if_neg, not_false_eq_true]
        exact hoc
      · simp only [hc, if_pos]
        exact shrinks_trans
          (shrinks_clearFields cs (clearOptionChildren v os (baseWrite tag v d s))) hoc

/-- Clearing a tag removes its model entry and resets its dirty flag, no
matter what the field's cascades do afterwards. -/
theorem setModelValue_undef_self (tag : String) (f : FTree) (s : St) :
    List.lookup tag (setModelValue tag JsVal.undef f s).model = none ∧
      getDirty (setModelValue tag JsVal.undef f s) tag = false := by
  have hpost := shrinks_setModelValue_post tag JsVal.undef f s
  have hb1 : List.lookup tag (baseWrite tag JsVal.undef f.ndata s).model = none := by
    simpa [isUndef] using baseWrite_model_self tag JsVal.undef f.ndata s
  have hb2 : getDirty (baseWrite tag JsVal.undef f.ndata s) tag = false := by
    simpa [isUndef] using baseWrite_dirty_self tag JsVal.undef f.ndata s
  exact ⟨shrinks_lookup_none hpost hb1, shrinks_dirty_false hpost hb2⟩

/-- Setting a non-`undefined` value stores the envelope and raises the
dirty flag, provided the tag does not reoccur below the field (where the
cascades could delete it again). -/
theorem setModelValue_set_self (tag : String) (v : JsVal) (f : FTree) (s : St)
    (hv : isUndef v = false) (hsub : tag ∉ strictSubTags f) :
    List.lookup tag (setModelValue tag v f s).model = some (mkModelValue f.ndata v) ∧
      getDirty (setModelValue tag v f s) tag = true := by
  cases f with
  | node d cs os =>
      simp only [strictSubTags, FTree.children, FTree.opts, List.mem_append, not_or] at hsub
      obtain ⟨hcs, hos⟩ := hsub
      simp only [setModelValue, FTree.ndata]
      have hb1 : List.lookup tag (baseWrite tag v d s).model = some (mkModelValue d v) := by
        simpa [hv] using baseWrite_model_self tag v d s
      have hb2 : getDirty (baseWrite tag v d s) tag = true := by
        simpa [hv] using baseWrite_dirty_self tag v d s
      have hoc := clearOptionChildren_frame v os (baseWrite tag v d s) tag hos
      cases hc : childClearCond d.ftype v
      · simp only [hc, Bool.false_eq_true, if_neg, not_false_eq_true]
        exact ⟨hoc.1.trans hb1, hoc.2.trans hb2⟩
      · simp only [hc, if_pos]
        have hcf := clearFields_frame cs (clearOptionChildren v os (baseWrite tag v d s)) tag hcs
        exact ⟨hcf.1.trans (hoc.1.trans hb1), hcf.2.trans (hoc.2.trans hb2)⟩

/-- After `__clearFields(fields)`, no field of the collection holds a
model value. -/
theorem clearFields_clears (fs : FForest) (s : St) :
    ∀ g ∈ fs.toList, hasValueB (getModelValue (clearFields fs s) g.tagOf) = false :=
  match fs with
  | .nil => by simp [FForest.toList]
  | .cons f rest => by
      intro g hg
      simp only [FForest.toList, List.mem_cons] at hg
      simp only [clearFields]
      rcases hg with rfl | hg
      · have h1 : hasValueB (getModelValue
            (if hasValueB (getModelValue s g.tagOf) then setModelValue g.tagOf JsVal.undef g s
              else s) g.tagOf) = false := by
          cases hv : hasValueB (getModelValue s g.tagOf)
          · simp [hv]
          · simp only [hv, if_pos]
            have hn := (setModelValue_undef_self g.tagOf g s).1
            simp [getModelValue, hn, hasValueB]
        exact shrinks_hasValue_false
          (shrinks_clearFields rest
            (if hasValueB (getModelValue s g.tagOf) then setModelValue g.tagOf JsVal.undef g s
              else s)) h1
      · exact clearFields_clears rest
          (if hasValueB (getModelValue s f.tagOf) then setModelValue f.tagOf JsVal.undef f s
            else s) g hg

/-- After `__clearOptionChildren(options, value)`, no direct child of a
deselected option holds a model value. -/
theorem clearOptionChildren_clears (v : JsVal) (os : FOptList) (s : St) :
    ∀ o ∈ os.toList, jsIncludes v (toStringVal o.idOf) = false →
      ∀ c ∈ o.fieldsOf.toList,
        hasValueB (getModelValue (clearOptionChildren v os s) c.tagOf) = false :=
  match os with
  | .nil => by simp [FOptList.toList]
  | .cons (.mk oid odv ofields) rest => by
      intro o ho hdesel c hc
      simp only [FOptList.toList, List.mem_cons] at ho
      simp only [clearOptionChildren]
      rcases ho with rfl | ho
      · simp only [FOpt.idOf] at hdesel
        simp only [FOpt.fieldsOf] at hc
        rw [hdesel]
        simp only [Bool.false_eq_true, if_neg, not_false_eq_true]
        exact shrinks_hasValue_false
          (shrinks_clearOptionChildren v rest (clearFields ofields s))
          (clearFields_clears ofields s c hc)
      · exact clearOptionChildren_clears v rest
          (if jsIncludes v (toStringVal oid) then s else clearFields ofields s) o ho hdesel c hc

/-- `__clearOptionChildren` touches only tags under deselected options. -/
theorem clearOptionChildren_frame_desel (v : JsVal) (os : FOptList) (s : St) (t : String)
    (h : t ∉ deselTags v os) :
    List.lookup t (clearOptionChildren v os s).model = List.lookup t s.model ∧
      getDirty (clearOptionChildren v os s) t = getDirty s t :=
  match os with
  | .nil => by simp [clearOptionChildren]
  | .cons (.mk oid odv ofields) rest => by
      simp only [deselTags, List.mem_append, not_or] at h
      obtain ⟨hh, hrest⟩ := h
      simp only [clearOptionChildren]
      have h1 : List.lookup t
            (if jsIncludes v (toStringVal oid) then s else clearFields ofields s).model =
            List.lookup t s.model ∧
          getDirty (if jsIncludes v (toStringVal oid) then s else clearFields ofields s) t =
            getDirty s t := by
        cases hinc : jsIncludes v (toStringVal oid)
        · rw [hinc] at hh
          simp only [Bool.false_eq_true, if_neg, not_false_eq_true] at hh ⊢
          exact clearFields_frame ofields s t hh
        · simp [hinc]
      have ih := clearOptionChildren_frame_desel v rest
        (if jsIncludes v (toStringVal oid) then s else clearFields ofields s) t hrest
      exact ⟨ih.1.trans h1.1, ih.2.trans h1.2⟩

/-- Claim C4: clearing with `undefined` removes the model entry for the tag
and resets the field's dirty flag, so no entry remains; writing any other
value stores the `{value, fieldType?, definitionId?}` envelope (provenance
present exactly when the field has a `definition` — by construction of
`mkModelValue`) and raises the dirty flag; `getModelValue` then returns the
unwrapped value, or the raw absent representation (`undefined`) when no
envelope exists. -/
theorem claim4_set_clear_dirty (tag : String) (f : FTree) (s : St) :
    (List.lookup tag (setModelValue tag JsVal.undef f s).model = none ∧
      getDirty (setModelValue tag JsVal.undef f s) tag = false ∧
      getModelValue (setModelValue tag JsVal.undef f s) tag = JsVal.undef) ∧
    (∀ v : JsVal, isUndef v = false → tag ∉ strictSubTags f →
      List.lookup tag (setModelValue tag v f s).model = some (mkModelValue f.ndata v) ∧
        getDirty (setModelValue tag v f s) tag = true ∧
        getModelValue (setModelValue tag v f s) tag = v) := by
  constructor
  · have h := setModelValue_undef_self tag f s
    exact ⟨h.1, h.2, by simp [getModelValue, h.1]⟩
  · intro v hv hsub
    have h := setModelValue_set_self tag v f s hv hsub
    exact ⟨h.1, h.2, by simp [getModelValue, h.1, mkModelValue]⟩

/-- Witness for claim C4 at concrete input: writing `5` to the NUMBER field
`wFld4` (which carries a definition) stores the full envelope and raises
the dirty flag; clearing afterwards leaves no entry and a lowered flag. -/
theorem claim4_witness :
    List.lookup "a" (setModelValue "a" (JsVal.num 5) wFld4 stEmpty).model =
        some ⟨JsVal.num 5, some (JsVal.str "T"), some (JsVal.num 7)⟩ ∧
      getDirty (setModelValue "a" (JsVal.num 5) wFld4 stEmpty) "a" = true ∧
      List.lookup "a"
          (setModelValue "a" JsVal.undef wFld4
            (setModelValue "a" (JsVal.num 5) wFld4 stEmpty)).model = none ∧
      getDirty (setModelValue "a" JsVal.undef wFld4
        (setModelValue "a" (JsVal.num 5) wFld4 stEmpty)) "a" = false := by
  have hset := (claim4_set_clear_dirty "a" wFld4 stEmpty).2 (JsVal.num 5) rfl (by decide)
  have hclr := (claim4_set_clear_dirty "a" wFld4
    (setModelValue "a" (JsVal.num 5) wFld4 stEmpty)).1
  exact ⟨hset.1, hset.2.1, hclr.1, hclr.2.1⟩

/-- Claim C2: for a field owning child fields, `setModelValue` clears all
its children exactly when the new value is empty for the field's type
(BOOLEAN: `value === false`; NUMBER: not-a-number; ARRAY: empty collection;
STRING/DATE/every other type: blank); on a non-empty value the model is
untouched except at the written tag itself. -/
theorem claim2_child_clear_iff_empty (tag : String) (d : FNodeData) (cs : FForest)
    (os : FOptList) (v : JsVal) (s : St) :
    (childClearCond d.ftype v = true →
      ∀ c ∈ cs.toList,
        hasValueB (getModelValue (setModelValue tag v (.node d cs os) s) c.tagOf) = false) ∧
    (childClearCond d.ftype v = false → os = .nil →
      ∀ t, t ≠ tag →
        List.lookup t (setModelValue tag v (.node d cs os) s).model = List.lookup t s.model ∧
          getDirty (setModelValue tag v (.node d cs os) s) t = getDirty s t) := by
  constructor
  · intro hcc c hc
    simp only [setModelValue, hcc, if_pos]
    exact clearFields_clears cs (clearOptionChildren v os (baseWrite tag v d s)) c hc
  · intro hcc hos t ht
    subst hos
    simp only [setModelValue, hcc, Bool.false_eq_true, if_neg, not_false_eq_true,
      clearOptionChildren]
    exact ⟨baseWrite_model_ne tag v d s t ht, baseWrite_dirty_ne tag v d s t ht⟩

/-- Witness for claim C2 at concrete input: on the BOOLEAN composite
`wFld2` whose child `c` holds a value, writing `false` clears the child,
while writing `true` leaves the child's entry unchanged. -/
theorem claim2_witness :
    hasValueB (getModelValue (setModelValue "p" (JsVal.bool false) wFld2 wSt2) "c") = false ∧
      List.lookup "c" (setModelValue "p" (JsVal.bool true) wFld2 wSt2).model =
        some (mv0 (.str "v")) := by
  have hfalse := (claim2_child_clear_iff_empty "p" (plainData "p" (some .BOOLEAN))
    (.cons (leafFld "c" (some .STRING)) .nil) .nil (JsVal.bool false) wSt2).1 rfl
    (leafFld "c" (some .STRING)) (by simp [FForest.toList])
  have htrue := ((claim2_child_clear_iff_empty "p" (plainData "p" (some .BOOLEAN))
    (.cons (leafFld "c" (some .STRING)) .nil) .nil (JsVal.bool true) wSt2).2 rfl rfl
    "c" (by decide)).1
  exact ⟨hfalse, htrue.trans rfl⟩

/-- Claim C10: clearing a composite field with `undefined` is not uniform
across types. On a BOOLEAN or NUMBER composite it removes only the field's
own entry and resets its dirty flag, leaving every other model entry —
including all children — untouched (`undefined` passes neither the
`value === false` nor the `Number.isNaN` test); on an ARRAY, STRING or DATE
composite the same clear also clears all child fields. -/
theorem claim10_undef_clear_by_type (tag : String) (d : FNodeData) (cs : FForest) (s : St) :
    ((d.ftype = some .BOOLEAN ∨ d.ftype = some .NUMBER) →
      List.lookup tag (setModelValue tag JsVal.undef (.node d cs .nil) s).model = none ∧
        getDirty (setModelValue tag JsVal.undef (.node d cs .nil) s) tag = false ∧
        ∀ t, t ≠ tag →
          List.lookup t (setModelValue tag JsVal.undef (.node d cs .nil) s).model =
            List.lookup t s.model) ∧
    ((d.ftype = some .ARRAY ∨ d.ftype = some .STRING ∨ d.ftype = some .DATE) →
      List.lookup tag (setModelValue tag JsVal.undef (.node d cs .nil) s).model = none ∧
        getDirty (setModelValue tag JsVal.undef (.node d cs .nil) s) tag = false ∧
        ∀ c ∈ cs.toList,
          hasValueB (getModelValue (setModelValue tag JsVal.undef (.node d cs .nil) s) c.tagOf)
            = false) := by
  constructor
  · intro hty
    have hcc : childClearCond d.ftype JsVal.undef = false := by
      rcases hty with h | h <;> simp [childClearCond, h, isFalseVal, isNaNVal]
    refine ⟨(setModelValue_undef_self tag (.node d cs .nil) s).1,
      (setModelValue_undef_self tag (.node d cs .nil) s).2, ?_⟩
    intro t ht
    simp only [setModelValue, hcc, Bool.false_eq_true, if_neg, not_false_eq_true,
      clearOptionChildren]
    exact baseWrite_model_ne tag JsVal.undef d s t ht
  · intro hty
    have hcc : childClearCond d.ftype JsVal.undef = true := by
      rcases hty with h | h | h <;> simp [childClearCond, h, jsIsEmpty, jsBlank]
    refine ⟨(setModelValue_undef_self tag (.node d cs .nil) s).1,
      (setModelValue_undef_self tag (.node d cs .nil) s).2, ?_⟩
    intro c hc
    simp only [setModelValue, hcc, if_pos]
    exact clearFields_clears cs
      (clearOptionChildren JsVal.undef .nil (baseWrite tag JsVal.undef d s)) c hc

/-- Witness for claim C10 at concrete input: clearing the BOOLEAN composite
`wFld2` leaves its child's value in place, while clearing the ARRAY
composite `wFld10` clears its child. -/
theorem claim10_witness :
    List.lookup "c" (setModelValue "p" JsVal.undef wFld2 wSt2).model = some (mv0 (.str "v")) ∧
      hasValueB (getModelValue (setModelValue "q" JsVal.undef wFld10 wSt2) "c") = false := by
  have hbool := ((claim10_undef_clear_by_type "p" (plainData "p" (some .BOOLEAN))
    (.cons (leafFld "c" (some .STRING)) .nil) wSt2).1 (Or.inl rfl)).2.2 "c" (by decide)
  have harr := ((claim10_undef_clear_by_type "q" (plainData "q" (some .ARRAY))
    (.cons (leafFld "c" (some .STRING)) .nil) wSt2).2 (Or.inl rfl)).2.2
    (leafFld "c" (some .STRING)) (by simp [FForest.toList])
  exact ⟨hbool.trans rfl, harr⟩

/-- Counterexample to claim C3 at an explicit concrete input: option id
`"1"` of `cex3Fld` is not contained in the written value `[]`, and the
grandchild `y` under that option holds a model value, yet after
`setModelValue` the value of `y` is still present — the engine does not
clear every descendant under a deselected option (the valueless direct
child `x` stops the recursion). -/
theorem claim3_counterexample :
    jsIncludes (JsVal.arr []) (toStringVal cex3Opt.idOf) = false ∧
      "y" ∈ tagsF cex3Opt.fieldsOf ∧
      hasValueB (getModelValue cex3St "y") = true ∧
      getModelValue (setModelValue "p" (JsVal.arr []) cex3Fld cex3St) "y" = JsVal.str "keep" :=
  ⟨rfl, by decide, rfl, rfl⟩

/-- Claim C3, amended: for every field with options, `setModelValue`
clears, for each option whose stringified id is not contained in the new
value, every *direct child* field under that option that currently holds a
model value (the clear recursing further only per the type-conditioned
child-clearing rules, so deeper descendants under a valueless or
BOOLEAN/NUMBER-typed child may survive); every tag outside the deselected
options' subtrees — in particular every descendant of an option whose id is
contained in the value — is left intact. -/
theorem claim3_option_deselect_amended (tag : String) (d : FNodeData) (os : FOptList)
    (v : JsVal) (s : St) :
    (∀ o ∈ os.toList, jsIncludes v (toStringVal o.idOf) = false →
      ∀ c ∈ o.fieldsOf.toList,
        hasValueB (getModelValue (setModelValue tag v (.node d .nil os) s) c.tagOf) = false) ∧
    (∀ t, t ≠ tag → t ∉ deselTags v os →
      List.lookup t (setModelValue tag v (.node d .nil os) s).model = List.lookup t s.model) := by
  have hshape : setModelValue tag v (.node d .nil os) s =
      clearOptionChildren v os (baseWrite tag v d s) := by
    simp only [setModelValue]
    cases hcc : childClearCond d.ftype v <;> simp [hcc, clearFields]
  constructor
  · intro o ho hdesel c hc
    rw [hshape]
    exact clearOptionChildren_clears v os (baseWrite tag v d s) o ho hdesel c hc
  · intro t ht hdesel
    rw [hshape]
    exact (clearOptionChildren_frame_desel v os (baseWrite tag v d s) t hdesel).1.trans
      (baseWrite_model_ne tag v d s t ht)

/-- Witness for the amended claim C3 at concrete input: selecting only
option `"1"` of `wFld3` clears the child of option `"2"` but leaves the
child of option `"1"` intact. -/
theorem claim3_witness :
    hasValueB (getModelValue (setModelValue "p" (JsVal.arr [.str "1"]) wFld3 wSt3) "c2")
        = false ∧
      List.lookup "c1" (setModelValue "p" (JsVal.arr [.str "1"]) wFld3 wSt3).model =
        some (mv0 (.str "v1")) := by
  have hclr := (claim3_option_deselect_amended "p" (plainData "p" (some .STRING))
    (.cons (.mk (.str "1") [] (.cons (leafFld "c1" (some .STRING)) .nil))
      (.cons (.mk (.str "2") [] (.cons (leafFld "c2" (some .STRING)) .nil)) .nil))
    (JsVal.arr [.str "1"]) wSt3).1
    (.mk (.str "2") [] (.cons (leafFld "c2" (some .STRING)) .nil))
    (by simp [FOptList.toList]) rfl
    (leafFld "c2" (some .STRING)) (by simp [FOpt.fieldsOf, FForest.toList])
  have hkeep := (claim3_option_deselect_amended "p" (plainData "p" (some .STRING))
    (.cons (.mk (.str "1") [] (.cons (leafFld "c1" (some .STRING)) .nil))
      (.cons (.mk (.str "2") [] (.cons (leafFld "c2" (some .STRING)) .nil)) .nil))
    (JsVal.arr [.str "1"]) wSt3).2 "c1" (by decide) (by decide)
  exact ⟨hclr, hkeep.trans rfl⟩

/-- Claim C6: a field with no show condition yields `true` with no side
effect; when the condition evaluates false and the field holds a non-blank
value, the value is cleared via `setModelValue`; and the check is
idempotent — re-evaluating the same false condition on the resulting state
performs no further write. -/
theorem claim6_show_condition (ev : Evaluator) (f : FTree) (tag : String) (s : St) :
    (f.ndata.showCondition = none → evaluateShowCondition ev f tag s = (true, s)) ∧
    (∀ c, f.ndata.showCondition = some c → ev.evalCondition c s = false →
      (jsBlank (getModelValue s tag) = false →
        evaluateShowCondition ev f tag s = (false, setModelValue tag JsVal.undef f s)) ∧
      (ev.evalCondition c (evaluateShowCondition ev f tag s).2 = false →
        evaluateShowCondition ev f tag (evaluateShowCondition ev f tag s).2 =
          (false, (evaluateShowCondition ev f tag s).2))) := by
  constructor
  · intro h
    simp [evaluateShowCondition, h]
  · intro c hc hfalse
    constructor
    · intro hnb
      simp [evaluateShowCondition, hc, hfalse, hnb]
    · intro hfalse2
      have hblank2 : jsBlank (getModelValue (evaluateShowCondition ev f tag s).2 tag) = true := by
        cases hb : jsBlank (getModelValue s tag)
        · have hs2 : (evaluateShowCondition ev f tag s).2 = setModelValue tag JsVal.undef f s := by
            simp [evaluateShowCondition, hc, hfalse, hb]
          rw [hs2]
          have hn := (setModelValue_undef_self tag f s).1
          simp [getModelValue, hn, jsBlank]
        · have hs2 : (evaluateShowCondition ev f tag s).2 = s := by
            simp [evaluateShowCondition, hc, hfalse, hb]
          rw [hs2, hb]
      generalize hgen : (evaluateShowCondition ev f tag s).2 = s2 at hfalse2 hblank2 ⊢
      simp [evaluateShowCondition, hc, hfalse2, hblank2]

/-- Witness for claim C6 at concrete input: on `wFld6` (whose condition
evaluates false under `wEvFalse`) holding the value `"x"`, the first
evaluation clears the value and the second evaluation is a no-op. -/
theorem claim6_witness :
    evaluateShowCondition wEvFalse wFld6 "s" wSt6 =
        (false, setModelValue "s" JsVal.undef wFld6 wSt6) ∧
      evaluateShowCondition wEvFalse wFld6 "s" (evaluateShowCondition wEvFalse wFld6 "s" wSt6).2 =
        (false, (evaluateShowCondition wEvFalse wFld6 "s" wSt6).2) := by
  have h := (claim6_show_condition wEvFalse wFld6 "s" wSt6).2 0 rfl rfl
  exact ⟨h.1 rfl, h.2 rfl⟩

/-- A run of default-value conditions whose guards all evaluate false
leaves the state untouched. -/
theorem runDVC_id_of_false (ev : Evaluator) (tag : String) (f : FTree)
    (cs : List (Nat × Nat)) (s : St)
    (h : ∀ c ∈ cs, ev.evalCondition c.1 s = false) :
    runDVC ev tag f cs s = s := by
  induction cs with
  | nil => rfl
  | cons c rest ih =>
      have hc : ev.evalCondition c.1 s = false := h c (List.mem_cons_self c rest)
      have hstep : dvcStep ev tag f s c = s := by simp [dvcStep, hc]
      simp only [runDVC, List.foldl_cons, hstep]
      exact ih (fun c' hc' => h c' (List.mem_cons_of_mem c hc'))

/-- Claim C5: within one evaluation of a field's default-value conditions,
the list (the field's own, or — when it defines none — the flattened union
of its options') is walked in declared order with no short-circuit (a run
over an appended list is the composition of the runs); every condition
whose guard holds produces a write via `setModelValue` and every other
condition leaves the state unchanged; hence the final model value for the
tag is the one produced by the last condition whose guard was true. -/
theorem claim5_dvc_order_last_wins (ev : Evaluator) (tag : String) (f : FTree) :
    (∀ s, evalDVCOne ev tag f s = runDVC ev tag f (resolveDVCs f) s) ∧
    (∀ l, f.ndata.dvcs = some l → resolveDVCs f = l) ∧
    (f.ndata.dvcs = none → resolveDVCs f = (f.opts.toList.map FOpt.odvcs).flatten) ∧
    (∀ cs1 cs2 s, runDVC ev tag f (cs1 ++ cs2) s = runDVC ev tag f cs2 (runDVC ev tag f cs1 s)) ∧
    (∀ c s, ev.evalCondition c.1 s = true →
      dvcStep ev tag f s c = setModelValue tag (dvcValue ev tag f c s) f s) ∧
    (∀ c s, ev.evalCondition c.1 s = false → dvcStep ev tag f s c = s) ∧
    (∀ cs1 c cs2 s,
      ev.evalCondition c.1 (runDVC ev tag f cs1 s) = true →
      isUndef (dvcValue ev tag f c (runDVC ev tag f cs1 s)) = false →
      tag ∉ strictSubTags f →
      (∀ c2 ∈ cs2, ev.evalCondition c2.1
        (setModelValue tag (dvcValue ev tag f c (runDVC ev tag f cs1 s)) f
          (runDVC ev tag f cs1 s)) = false) →
      List.lookup tag (runDVC ev tag f (cs1 ++ c :: cs2) s).model =
        some (mkModelValue f.ndata (dvcValue ev tag f c (runDVC ev tag f cs1 s)))) := by
  refine ⟨fun _ => rfl, ?_, ?_, ?_, ?_, ?_, ?_⟩
  · intro l h
    simp [resolveDVCs, h]
  · intro h
    simp [resolveDVCs, h]
  · intro cs1 cs2 s
    simp [runDVC, List.foldl_append]
  · intro c s h
    simp [dvcStep, h]
  · intro c s h
    simp [dvcStep, h]
  · intro cs1 c cs2 s hguard hundef hsub hrest
    have happ : runDVC ev tag f (cs1 ++ c :: cs2) s =
        runDVC ev tag f cs2 (dvcStep ev tag f (runDVC ev tag f cs1 s) c) := by
      simp [runDVC, List.foldl_append]
    have hstep : dvcStep ev tag f (runDVC ev tag f cs1 s) c =
        setModelValue tag (dvcValue ev tag f c (runDVC ev tag f cs1 s)) f
          (runDVC ev tag f cs1 s) := by
      simp [dvcStep, hguard]
    rw [happ, hstep, runDVC_id_of_false ev tag f cs2 _ hrest]
    exact (setModelValue_set_self tag _ f _ hundef hsub).1

/-- Witness for claim C5 at concrete input: over the condition list
`[(0,10), (0,11), (1,12)]` on field `d` (under `wEv5`, guard 0 is true and
guard 1 false; expression `e` evaluates to the number `e`), the final model
value is the one written by the last condition whose guard was true: `11`. -/
theorem claim5_witness :
    List.lookup "d"
        (runDVC wEv5 "d" (leafFld "d" (some .STRING)) [(0, 10), (0, 11), (1, 12)] stEmpty).model
      = some (mv0 (.num 11)) := by
  have h := (claim5_dvc_order_last_wins wEv5 "d" (leafFld "d" (some .STRING))).2.2.2.2.2.2
    [(0, 10)] (0, 11) [(1, 12)] stEmpty rfl rfl (by decide) (by decide)
  exact h

/-- An `Option`-valued left fold only depends on the pointwise behaviour of
its step function. -/
theorem foldlM_option_congr {α β : Type} (g1 g2 : β → α → Option β)
    (h : ∀ b a, g1 b a = g2 b a) : ∀ (l : List α) (b : β),
      List.foldlM g1 b l = List.foldlM g2 b l := by
  intro l
  induction l with
  | nil => intro b; rfl
  | cons x xs ih =>
      intro b
      rw [List.foldlM_cons, List.foldlM_cons, h b x]
      cases g2 b x
      · rfl
      · exact ih _

/-- Claim C1: `calculateFields(field)` coincides with the cascade the spec
describes — for a `calc` field, iterate over `calcTriggerMap[field.id]`,
and for each dependent tag with an entry in `calcExpressionMap` evaluate
that expression with the instance as context, write the result via
`setModelValue(tag, value, getField(tag))` and immediately invoke the
default-value cascade for that same tag — and for a field without the
`calc` flag it performs no writes at all. -/
theorem claim1_calc_cascade (ev : Evaluator) (maps : FormDefMaps)
    (flds : List (String × FTree)) (f : FTree) (s : St) :
    calculateFields ev maps flds f s = calcCascadeSpec ev maps flds f s ∧
    (f.ndata.calcFlag = false → calculateFields ev maps flds f s = some s) := by
  constructor
  · unfold calculateFields calcCascadeSpec
    cases hcf : f.ndata.calcFlag
    · simp [hcf]
    · simp only [hcf, if_pos]
      apply foldlM_option_congr
      intro st tag
      unfold calcCascadeStepSpec
      cases h1 : List.lookup tag maps.calcExpressionMap
      · simp [h1]
      · cases h2 : List.lookup tag flds <;> simp [h1, h2]
  · intro h
    simp [calculateFields, h]

/-- Witness for claim C1 at concrete input: on a field without the `calc`
flag, `calculateFields` returns the state unchanged. -/
theorem claim1_witness :
    calculateFields wEvFalse wMaps0 [] (leafFld "z" (some .STRING)) stEmpty = some stEmpty :=
  (claim1_calc_cascade wEvFalse wMaps0 [] (leafFld "z" (some .STRING)) stEmpty).2 rfl

/-- The running-maximum fold of `getStatus`: the result is the initial
status or one of the items' statuses, dominates the initial status, and
dominates every item's status. -/
theorem getStatus_fold_aux {α : Type} (statusOf : α → VStatus) (items : List α) :
    ∀ init : VStatus,
      (List.foldl (fun st x => if isMoreSevereStatus (statusOf x) st then statusOf x else st)
          init items = init ∨
        List.foldl (fun st x => if isMoreSevereStatus (statusOf x) st then statusOf x else st)
          init items ∈ items.map statusOf) ∧
      sev init ≤ sev (List.foldl
        (fun st x => if isMoreSevereStatus (statusOf x) st then statusOf x else st) init items) ∧
      ∀ x ∈ items, sev (statusOf x) ≤ sev (List.foldl
        (fun st x => if isMoreSevereStatus (statusOf x) st then statusOf x else st) init items) := by
  induction items with
  | nil => simp
  | cons y ys ih =>
      intro init
      simp only [List.foldl_cons, List.map_cons]
      obtain ⟨ih1, ih2, ih3⟩ :=
        ih (if isMoreSevereStatus (statusOf y) init then statusOf y else init)
      have hstep : sev init ≤
          sev (if isMoreSevereStatus (statusOf y) init then statusOf y else init) := by
        cases hm : isMoreSevereStatus (statusOf y) init
        · simp [hm]
        · simp only [hm, if_pos]
          exact Nat.le_of_lt (by simpa [isMoreSevereStatus] using hm)
      refine ⟨?_, hstep.trans ih2, ?_⟩
      · rcases ih1 with h | h
        · rw [h]
          cases hm : isMoreSevereStatus (statusOf y) init
          · simp [hm]
          · simp [hm]
        · exact Or.inr (List.mem_cons_of_mem _ h)
      · intro x hx
        rcases List.mem_cons.mp hx with rfl | hx
        · have h1 : sev (statusOf x) ≤
              sev (if isMoreSevereStatus (statusOf x) init then statusOf x else init) := by
            cases hm : isMoreSevereStatus (statusOf x) init
            · have : ¬ sev init < sev (statusOf x) := by
                simpa [isMoreSevereStatus] using hm
              simpa [hm] using Nat.le_of_not_lt this
            · simp [hm]
          exact h1.trans ih2
        · exact ih3 x hx

/-- Claim C7: the subsection rollup is the maximum-severity status among
the subsection's fields' statuses under OK < WARNING < ERROR (the result
starts at OK and is one of the statuses seen, and it dominates each of
them); the section rollup is likewise the maximum over the subsections'
recursive rollups. -/
theorem claim7_status_rollup (vr : String → VStatus) :
    (∀ ss : Subsec,
      (getSubsectionStatus vr ss = VStatus.OK ∨
        getSubsectionStatus vr ss ∈ (rootTags ss.fields).map vr) ∧
      ∀ t ∈ rootTags ss.fields, sev (vr t) ≤ sev (getSubsectionStatus vr ss)) ∧
    (∀ sec : Sec,
      (getSectionStatus vr sec = VStatus.OK ∨
        getSectionStatus vr sec ∈ sec.subsections.map (getSubsectionStatus vr)) ∧
      ∀ ss ∈ sec.subsections,
        sev (getSubsectionStatus vr ss) ≤ sev (getSectionStatus vr sec)) := by
  constructor
  · intro ss
    have h := getStatus_fold_aux vr (rootTags ss.fields) VStatus.OK
    exact ⟨h.1, h.2.2⟩
  · intro sec
    have h := getStatus_fold_aux (getSubsectionStatus vr) sec.subsections VStatus.OK
    exact ⟨h.1, h.2.2⟩

/-- Witness for claim C7 at concrete input: in `wSs7` (fields `a`, `b`;
`a` in ERROR), the subsection rollup dominates the status of `a`. -/
theorem claim7_witness :
    sev (wVr7 "a") ≤ sev (getSubsectionStatus wVr7 wSs7) :=
  ((claim7_status_rollup wVr7).1 wSs7).2 "a" (by decide)

mutual
theorem decorateField_ui_inv (idx : List (String × FTree)) (us : List (String × UiField))
    (f : FTree) (out : List (String × FTree) × List (String × UiField))
    (h : decorateField none idx us f = .ok out) : out.2 = us :=
  match f with
  | .node d cs os => by
      simp only [decorateField] at h
      split at h
      · exact absurd h (by simp)
      · split at h
        · exact absurd h (by simp)
        · split at h
          · exact absurd h (by simp)
          · rename_i idx1 us2 hforest
            split at h
            · exact absurd h (by simp)
            · rename_i idx2 us3 hopts
              simp only [Except.ok.injEq] at h
              have h2 := decorateOpts_ui_inv idx1 us2 os (idx2, us3) hopts
              have h1 := decorateForest_ui_inv idx us cs (idx1, us2) hforest
              rw [← h]
              exact h2.trans h1

theorem decorateForest_ui_inv (idx : List (String × FTree)) (us : List (String × UiField))
    (fs : FForest) (out : List (String × FTree) × List (String × UiField))
    (h : decorateForest idx us fs = .ok out) : out.2 = us :=
  match fs with
  | .nil => by
      simp only [decorateForest, Except.ok.injEq] at h
      rw [← h]
  | .cons f rest => by
      simp only [decorateForest] at h
      split at h
      · exact absurd h (by simp)
      · rename_i idx1 us1 hf
        have h1 := decorateField_ui_inv idx us f (idx1, us1) hf
        have h2 := decorateForest_ui_inv idx1 us1 rest out h
        exact h2.trans h1

theorem decorateOpts_ui_inv (idx : List (String × FTree)) (us : List (String × UiField))
    (os : FOptList) (out : List (String × FTree) × List (String × UiField))
    (h : decorateOpts idx us os = .ok out) : out.2 = us :=
  match os with
  | .nil => by
      simp only [decorateOpts, Except.ok.injEq] at h
      rw [← h]
  | .cons (.mk oid odv ofields) rest => by
      simp only [decorateOpts] at h
      split at h
      · exact absurd h (by simp)
      · rename_i idx1 us1 hf
        have h1 := decorateForest_ui_inv idx us ofields (idx1, us1) hf
        have h2 := decorateOpts_ui_inv idx1 us1 rest out h
        exact h2.trans h1
end

theorem decorateSubsections_ui_inv (idx : List (String × FTree)) (us : List (String × UiField))
    (l : List Subsec) (out : List (String × FTree) × List (String × UiField))
    (h : decorateSubsections idx us l = .ok out) : out.2 = us := by
  induction l generalizing idx us with
  | nil =>
      simp only [decorateSubsections, Except.ok.injEq] at h
      rw [← h]
  | cons ss rest ih =>
      simp only [decorateSubsections] at h
      split at h
      · exact absurd h (by simp)
      · rename_i idx1 us1 hf
        rw [ih idx1 us1 h]
        exact decorateForest_ui_inv idx us ss.fields (idx1, us1) hf

theorem decorateSections_ui_inv (idx : List (String × FTree)) (us : List (String × UiField))
    (l : List Sec) (out : List (String × FTree) × List (String × UiField))
    (h : decorateSections idx us l = .ok out) : out.2 = us := by
  induction l generalizing idx us with
  | nil =>
      simp only [decorateSections, Except.ok.injEq] at h
      rw [← h]
  | cons sec rest ih =>
      simp only [decorateSections] at h
      split at h
      · exact absurd h (by simp)
      · rename_i idx1 us1 hf
        rw [ih idx1 us1 h]
        exact decorateSubsections_ui_inv idx us sec.subsections (idx1, us1) hf

/-- Claim C9: successful construction returns the caller's definition
unchanged — in particular the schema's sections and the UI schema are
exactly as supplied (construction never passes a component-key override, so
decoration never touches the UI schema); and the override routine, when it
is used, changes the UI schema only at its own tag, which receives a
`component` of the given type. -/
theorem claim9_nondestructive (d : FormDefn) (inst : FormInstance)
    (hok : mkForm (some d) = .ok inst) :
    inst.definition = d ∧
    (∀ (tag : String) (ty : Nat) (us : List (String × UiField)),
      List.lookup tag (addComponentToUiSchema tag ty us).1 =
          some (addComponentToUiSchema tag ty us).2 ∧
        (addComponentToUiSchema tag ty us).2.component = some ty ∧
        ∀ t, t ≠ tag →
          List.lookup t (addComponentToUiSchema tag ty us).1 = List.lookup t us) := by
  constructor
  · simp only [mkForm] at hok
    split at hok
    · exact absurd hok (by simp)
    · rename_i sch hsch
      split at hok
      · exact absurd hok (by simp)
      · rename_i idx1 us1 hdec
        simp only [Except.ok.injEq] at hok
        have hus : us1 = d.uiSchema :=
          decorateSections_ui_inv [] d.uiSchema (sortSections sch.sections) (idx1, us1) hdec
        rw [← hok]
        simp only [hus]
  · intro tag ty us
    unfold addComponentToUiSchema
    cases h : List.lookup tag us
    · exact ⟨lookup_setKey_self us tag _, rfl, fun t ht => lookup_setKey_ne us tag t _ ht⟩
    · exact ⟨lookup_setKey_self us tag _, rfl, fun t ht => lookup_setKey_ne us tag t _ ht⟩

/-- Witness for claim C9 at concrete input: constructing from `wDefn9`
returns the definition untouched, and the override routine gives tag `g`
a `component` entry of type `5` while leaving other tags alone. -/
theorem claim9_witness :
    wInst9.definition = wDefn9 ∧
      (addComponentToUiSchema "g" 5 wDefn9.uiSchema).2.component = some 5 := by
  have h := claim9_nondestructive wDefn9 wInst9 rfl
  exact ⟨h.1, (h.2 "g" 5 wDefn9.uiSchema).2.1⟩

theorem decorateFieldList_append (l1 l2 : List FTree) :
    ∀ idx us, decorateFieldList idx us (l1 ++ l2) =
      match decorateFieldList idx us l1 with
      | .error e => .error e
      | .ok (i, u) => decorateFieldList i u l2 := by
  induction l1 with
  | nil => intro idx us; rfl
  | cons f rest ih =>
      intro idx us
      simp only [List.cons_append, decorateFieldList]
      cases decorateField none idx us f with
      | error e => rfl
      | ok out => exact ih out.1 out.2

theorem decorateForest_eq_list (fs : FForest) :
    ∀ idx us, decorateForest idx us fs = decorateFieldList idx us fs.toList :=
  match fs with
  | .nil => by intro idx us; rfl
  | .cons f rest => by
      intro idx us
      simp only [decorateForest, FForest.toList, decorateFieldList]
      cases decorateField none idx us f with
      | error e => rfl
      | ok out => exact decorateForest_eq_list rest out.1 out.2

theorem decorateOpts_eq_list (os : FOptList) :
    ∀ idx us, decorateOpts idx us os = decorateFieldList idx us (optChildTrees os) :=
  match os with
  | .nil => by intro idx us; rfl
  | .cons (.mk oid odv ofields) rest => by
      intro idx us
      simp only [decorateOpts, optChildTrees, decorateFieldList_append]
      rw [decorateForest_eq_list ofields idx us]
      cases decorateFieldList idx us ofields.toList with
      | error e => rfl
      | ok out => exact decorateOpts_eq_list rest out.1 out.2

theorem decorateSubsections_eq_list (l : List Subsec) :
    ∀ idx us, decorateSubsections idx us l =
      decorateFieldList idx us ((l.map (fun ss => ss.fields.toList)).flatten) := by
  induction l with
  | nil => intro idx us; rfl
  | cons ss rest ih =>
      intro idx us
      simp only [decorateSubsections, List.map_cons, List.flatten_cons, decorateFieldList_append]
      rw [decorateForest_eq_list ss.fields idx us]
      cases decorateFieldList idx us ss.fields.toList with
      | error e => rfl
      | ok out => exact ih out.1 out.2

theorem decorateSections_eq_list (l : List Sec) :
    ∀ idx us, decorateSections idx us l = decorateFieldList idx us (flattenSchema l) := by
  induction l with
  | nil => intro idx us; rfl
  | cons sec rest ih =>
      intro idx us
      simp only [decorateSections, flattenSchema, List.map_cons, List.flatten_cons,
        decorateFieldList_append]
      rw [decorateSubsections_eq_list sec.subsections idx us]
      simp only [decorateSubsections_eq_list, flattenSchema] at ih ⊢
      cases decorateFieldList idx us ((sec.subsections.map (fun ss => ss.fields.toList)).flatten) with
      | error e => rfl
      | ok out => exact ih out.1 out.2

theorem lookup_setKey_isSome {α : Type} (l : List (String × α)) (k t : String) (v : α) :
    (List.lookup t (setKey l k v)).isSome = true ↔
      (t = k ∨ (List.lookup t l).isSome = true) := by
  by_cases h : t = k
  · subst h
    simp [lookup_setKey_self]
  · rw [lookup_setKey_ne l k t v h]
    simp [h]

mutual
theorem decorateField_keys (key : Option Nat) (idx : List (String × FTree))
    (us : List (String × UiField)) (f : FTree)
    (out : List (String × FTree) × List (String × UiField))
    (h : decorateField key idx us f = .ok out) (t : String) :
    (List.lookup t out.1).isSome = true ↔
      ((List.lookup t idx).isSome = true ∨ t ∈ tagsT f) :=
  match f with
  | .node d cs os => by
      simp only [decorateField] at h
      split at h
      · exact absurd h (by simp)
      · split at h
        · exact absurd h (by simp)
        · split at h
          · exact absurd h (by simp)
          · rename_i idx1 us2 hforest
            split at h
            · exact absurd h (by simp)
            · rename_i idx2 us3 hopts
              simp only [Except.ok.injEq] at h
              have hkf := decorateField_keys_forest idx _ cs (idx1, us2) hforest t
              have hko := decorateField_keys_opts idx1 us2 os (idx2, us3) hopts t
              rw [← h]
              simp only [lookup_setKey_isSome, tagsT, List.mem_cons, List.mem_append]
              constructor
              · rintro (rfl | hx)
                · exact Or.inr (Or.inl rfl)
                · rcases hko.mp hx with hy | hy
                  · rcases hkf.mp hy with hz | hz
                    · exact Or.inl hz
                    · exact Or.inr (Or.inr (Or.inl hz))
                  · exact Or.inr (Or.inr (Or.inr hy))
              · rintro (hx | rfl | hx | hx)
                · exact Or.inr (hko.mpr (Or.inl (hkf.mpr (Or.inl hx))))
                · exact Or.inl rfl
                · exact Or.inr (hko.mpr (Or.inl (hkf.mpr (Or.inr hx))))
                · exact Or.inr (hko.mpr (Or.inr hx))

theorem decorateField_keys_forest (idx : List (String × FTree))
    (us : List (String × UiField)) (fs : FForest)
    (out : List (String × FTree) × List (String × UiField))
    (h : decorateForest idx us fs = .ok out) (t : String) :
    (List.lookup t out.1).isSome = true ↔
      ((List.lookup t idx).isSome = true ∨ t ∈ tagsF fs) :=
  match fs with
  | .nil => by
      simp only [decorateForest, Except.ok.injEq] at h
      rw [← h]
      simp [tagsF]
  | .cons f rest => by
      simp only [decorateForest] at h
      split at h
      · exact absurd h (by simp)
      · rename_i idx1 us1 hf
        have h1 := decorateField_keys none idx us f (idx1, us1) hf t
        have h2 := decorateField_keys_forest idx1 us1 rest out h t
        simp only [tagsF, List.mem_append]
        rw [h2]
        simp only [h1]
        tauto

theorem decorateField_keys_opts (idx : List (String × FTree))
    (us : List (String × UiField)) (os : FOptList)
    (out : List (String × FTree) × List (String × UiField))
    (h : decorateOpts idx us os = .ok out) (t : String) :
    (List.lookup t out.1).isSome = true ↔
      ((List.lookup t idx).isSome = true ∨ t ∈ tagsO os) :=
  match os with
  | .nil => by
      simp only [decorateOpts, Except.ok.injEq] at h
      rw [← h]
      simp [tagsO]
  | .cons (.mk oid odv ofields) rest => by
      simp only [decorateOpts] at h
      split at h
      · exact absurd h (by simp)
      · rename_i idx1 us1 hf
        have h1 := decorateField_keys_forest idx us ofields (idx1, us1) hf t
        have h2 := decorateField_keys_opts idx1 us1 rest out h t
        simp only [tagsO, List.mem_append]
        rw [h2]
        simp only [h1]
        tauto
end

mutual
theorem decorateField_err_kind (key : Option Nat) (idx : List (String × FTree))
    (us : List (String × UiField)) (f : FTree) (e : FormError)
    (h : decorateField key idx us f = .error e) (htyped : typedT f = true) :
    ∃ t, e = .duplicateTag t :=
  match f with
  | .node d cs os => by
      simp only [typedT, Bool.and_eq_true] at htyped
      simp only [decorateField] at h
      split at h
      · simp only [Except.error.injEq] at h
        exact ⟨d.tag, h.symm⟩
      · split at h
        · rename_i hno
          rw [Option.isNone_iff_eq_none] at hno
          rw [hno] at htyped
          simp at htyped
        · split at h
          · rename_i e1 hforest
            simp only [Except.error.injEq] at h
            subst h
            exact decorateField_err_kind_forest idx _ cs _ hforest htyped.1.2
          · rename_i idx1 us2 hforest
            split at h
            · rename_i e1 hopts
              simp only [Except.error.injEq] at h
              subst h
              exact decorateField_err_kind_opts idx1 us2 os _ hopts htyped.2
            · exact absurd h (by simp)

theorem decorateField_err_kind_forest (idx : List (String × FTree))
    (us : List (String × UiField)) (fs : FForest) (e : FormError)
    (h : decorateForest idx us fs = .error e) (htyped : typedF fs = true) :
    ∃ t, e = .duplicateTag t :=
  match fs with
  | .nil => by
      simp only [decorateForest] at h
      exact absurd h (by simp)
  | .cons f rest => by
      simp only [typedF, Bool.and_eq_true] at htyped
      simp only [decorateForest] at h
      split at h
      · rename_i e1 hf
        simp only [Except.error.injEq] at h
        subst h
        exact decorateField_err_kind none idx us f _ hf htyped.1
      · rename_i idx1 us1 hf
        exact decorateField_err_kind_forest idx1 us1 rest e h htyped.2

theorem decorateField_err_kind_opts (idx : List (String × FTree))
    (us : List (String × UiField)) (os : FOptList) (e : FormError)
    (h : decorateOpts idx us os = .error e) (htyped : typedO os = true) :
    ∃ t, e = .duplicateTag t :=
  match os with
  | .nil => by
      simp only [decorateOpts] at h
      exact absurd h (by simp)
  | .cons (.mk oid odv ofields) rest => by
      simp only [typedO, Bool.and_eq_true] at htyped
      simp only [decorateOpts] at h
      split at h
      · rename_i e1 hf
        simp only [Except.error.injEq] at h
        subst h
        exact decorateField_err_kind_forest idx us ofields _ hf htyped.1
      · rename_i idx1 us1 hf
        exact decorateField_err_kind_opts idx1 us1 rest e h htyped.2
end

mutual
theorem decorateField_seed (key : Option Nat) (idx : List (String × FTree))
    (us : List (String × UiField)) (f : FTree) (t0 : String)
    (hidx : (List.lookup t0 idx).isSome = true) (hmem : t0 ∈ tagsT f)
    (htyped : typedT f = true) :
    ∃ t, decorateField key idx us f = .error (.duplicateTag t) :=
  match f with
  | .node d cs os => by
      simp only [typedT, Bool.and_eq_true] at htyped
      by_cases hdup : (List.lookup d.tag idx).isSome = true
      · exact ⟨d.tag, by simp [decorateField, hdup]⟩
      · have hdup2 : (List.lookup d.tag idx).isSome = false := by
          cases hq : (List.lookup d.tag idx).isSome
          · rfl
          · exact absurd hq hdup
        have hnotype : d.ftype.isNone = false := by
          have h1 := htyped.1.1
          cases hft : d.ftype
          · rw [hft] at h1; simp at h1
          · simp [hft]
        simp only [tagsT, List.mem_cons, List.mem_append] at hmem
        rcases hmem with rfl | hmem1 | hmem2
        · exact absurd hidx hdup
        · obtain ⟨t, hft⟩ := decorateField_seed_forest idx (uiAfterKey key d.tag us) cs t0
            hidx hmem1 htyped.1.2
          exact ⟨t, by simp [decorateField, hdup2, hnotype, hft]⟩
        · cases hforest : decorateForest idx (uiAfterKey key d.tag us) cs with
          | error e =>
              obtain ⟨t, hte⟩ := decorateField_err_kind_forest idx _ cs e hforest htyped.1.2
              subst hte
              exact ⟨t, by simp [decorateField, hdup2, hnotype, hforest]⟩
          | ok out =>
              have hidx1 : (List.lookup t0 out.1).isSome = true :=
                (decorateField_keys_forest idx _ cs out hforest t0).mpr (Or.inl hidx)
              obtain ⟨t, hopt⟩ := decorateField_seed_opts out.1 out.2 os t0 hidx1 hmem2 htyped.2
              obtain ⟨idx1, us1⟩ := out
              exact ⟨t, by simp [decorateField, hdup2, hnotype, hforest, hopt]⟩

theorem decorateField_seed_forest (idx : List (String × FTree))
    (us : List (String × UiField)) (fs : FForest) (t0 : String)
    (hidx : (List.lookup t0 idx).isSome = true) (hmem : t0 ∈ tagsF fs)
    (htyped : typedF fs = true) :
    ∃ t, decorateForest idx us fs = .error (.duplicateTag t) :=
  match fs with
  | .nil => by simp [tagsF] at hmem
  | .cons f rest => by
      simp only [typedF, Bool.and_eq_true] at htyped
      simp only [tagsF, List.mem_append] at hmem
      rcases hmem with hm | hm
      · obtain ⟨t, hf⟩ := decorateField_seed none idx us f t0 hidx hm htyped.1
        exact ⟨t, by simp [decorateForest, hf]⟩
      · cases hf : decorateField none idx us f with
        | error e =>
            obtain ⟨t, hte⟩ := decorateField_err_kind none idx us f e hf htyped.1
            subst hte
            exact ⟨t, by simp [decorateForest, hf]⟩
        | ok out =>
            have hidx1 := (decorateField_keys none idx us f out hf t0).mpr (Or.inl hidx)
            obtain ⟨t, hr⟩ := decorateField_seed_forest out.1 out.2 rest t0 hidx1 hm htyped.2
            obtain ⟨idx1, us1⟩ := out
            exact ⟨t, by simp [decorateForest, hf, hr]⟩

theorem decorateField_seed_opts (idx : List (String × FTree))
    (us : List (String × UiField)) (os : FOptList) (t0 : String)
    (hidx : (List.lookup t0 idx).isSome = true) (hmem : t0 ∈ tagsO os)
    (htyped : typedO os = true) :
    ∃ t, decorateOpts idx us os = .error (.duplicateTag t) :=
  match os with
  | .nil => by simp [tagsO] at hmem
  | .cons (.mk oid odv ofields) rest => by
      simp only [typedO, Bool.and_eq_true] at htyped
      simp only [tagsO, List.mem_append] at hmem
      rcases hmem with hm | hm
      · obtain ⟨t, hf⟩ := decorateField_seed_forest idx us ofields t0 hidx hm htyped.1
        exact ⟨t, by simp [decorateOpts, hf]⟩
      · cases hf : decorateForest idx us ofields with
        | error e =>
            obtain ⟨t, hte⟩ := decorateField_err_kind_forest idx us ofields e hf htyped.1
            subst hte
            exact ⟨t, by simp [decorateOpts, hf]⟩
        | ok out =>
            have hidx1 := (decorateField_keys_forest idx us ofields out hf t0).mpr (Or.inl hidx)
            obtain ⟨t, hr⟩ := decorateField_seed_opts out.1 out.2 rest t0 hidx1 hm htyped.2
            obtain ⟨idx1, us1⟩ := out
            exact ⟨t, by simp [decorateOpts, hf, hr]⟩
end

mutual
theorem decorateField_untyped (key : Option Nat) (idx : List (String × FTree))
    (us : List (String × UiField)) (f : FTree) (htyped : typedT f = false)
    (out : List (String × FTree) × List (String × UiField)) :
    decorateField key idx us f ≠ .ok out :=
  match f with
  | .node d cs os => by
      intro hok
      simp only [decorateField] at hok
      split at hok
      · exact absurd hok (by simp)
      · split at hok
        · exact absurd hok (by simp)
        · rename_i hdup hno
          have hisSome : d.ftype.isSome = true := by
            cases hft : d.ftype
            · rw [hft] at hno; simp at hno
            · simp
          split at hok
          · exact absurd hok (by simp)
          · rename_i idx1 us2 hforest
            split at hok
            · exact absurd hok (by simp)
            · rename_i idx2 us3 hopts
              cases hcs : typedF cs
              · exact decorateField_untyped_forest idx _ cs hcs (idx1, us2) hforest
              · cases hos : typedO os
                · exact decorateField_untyped_opts idx1 us2 os hos (idx2, us3) hopts
                · rw [typedT, hisSome, hcs, hos] at htyped
                  simp at htyped

theorem decorateField_untyped_forest (idx : List (String × FTree))
    (us : List (String × UiField)) (fs : FForest) (htyped : typedF fs = false)
    (out : List (String × FTree) × List (String × UiField)) :
    decorateForest idx us fs ≠ .ok out :=
  match fs with
  | .nil => by
      rw [typedF] at htyped
      simp at htyped
  | .cons f rest => by
      intro hok
      simp only [decorateForest] at hok
      split at hok
      · exact absurd hok (by simp)
      · rename_i idx1 us1 hf
        cases hft : typedT f
        · exact decorateField_untyped none idx us f hft (idx1, us1) hf
        · cases hrt : typedF rest
          · exact decorateField_untyped_forest idx1 us1 rest hrt out hok
          · rw [typedF, hft, hrt] at htyped
            simp at htyped

theorem decorateField_untyped_opts (idx : List (String × FTree))
    (us : List (String × UiField)) (os : FOptList) (htyped : typedO os = false)
    (out : List (String × FTree) × List (String × UiField)) :
    decorateOpts idx us os ≠ .ok out :=
  match os with
  | .nil => by
      rw [typedO] at htyped
      simp at htyped
  | .cons (.mk oid odv ofields) rest => by
      intro hok
      simp only [decorateOpts] at hok
      split at hok
      · exact absurd hok (by simp)
      · rename_i idx1 us1 hf
        cases hft : typedF ofields
        · exact decorateField_untyped_forest idx us ofields hft (idx1, us1) hf
        · cases hrt : typedO rest
          · exact decorateField_untyped_opts idx1 us1 rest hrt out hok
          · rw [typedO, hft, hrt] at htyped
            simp at htyped
end

mutual
theorem decorateField_nodup (key : Option Nat) (idx : List (String × FTree))
    (us : List (String × UiField)) (f : FTree)
    (hfresh : ∀ t ∈ tagsT f, (List.lookup t idx).isSome = false)
    (hnd : (tagsT f).Nodup) (e : FormError)
    (h : decorateField key idx us f = .error e) : e = .missingType :=
  match f with
  | .node d cs os => by
      have hfresh2 : ∀ t, t ∈ tagsF cs ∨ t ∈ tagsO os →
          (List.lookup t idx).isSome = false := by
        intro t ht
        refine hfresh t ?_
        simp only [tagsT, List.mem_cons, List.mem_append]
        exact Or.inr ht
      have hnd2 : (tagsF cs ++ tagsO os).Nodup := by
        rw [tagsT] at hnd
        exact hnd.of_cons
      simp only [decorateField] at h
      split at h
      · rename_i hdup
        have := hfresh d.tag (by simp [tagsT])
        rw [this] at hdup
        simp at hdup
      · split at h
        · simp only [Except.error.injEq] at h
          exact h.symm
        · split at h
          · rename_i e1 hforest
            simp only [Except.error.injEq] at h
            subst h
            exact decorateField_nodup_forest idx _ cs
              (fun t ht => hfresh2 t (Or.inl ht)) hnd2.of_append_left _ hforest
          · rename_i idx1 us2 hforest
            split at h
            · rename_i e1 hopts
              simp only [Except.error.injEq] at h
              subst h
              have hdisj := List.disjoint_of_nodup_append hnd2
              refine decorateField_nodup_opts idx1 us2 os ?_ hnd2.of_append_right _ hopts
              intro t ht
              have hk := decorateField_keys_forest idx _ cs (idx1, us2) hforest t
              cases hq : (List.lookup t idx1).isSome
              · rfl
              · rcases hk.mp hq with hx | hx
                · rw [hfresh2 t (Or.inr ht)] at hx
                  simp at hx
                · exact absurd ht (hdisj hx)
            · exact absurd h (by simp)

theorem decorateField_nodup_forest (idx : List (String × FTree))
    (us : List (String × UiField)) (fs : FForest)
    (hfresh : ∀ t ∈ tagsF fs, (List.lookup t idx).isSome = false)
    (hnd : (tagsF fs).Nodup) (e : FormError)
    (h : decorateForest idx us fs = .error e) : e = .missingType :=
  match fs with
  | .nil => by
      simp only [decorateForest] at h
      exact absurd h (by simp)
  | .cons f rest => by
      rw [tagsF] at hnd
      have hdisj := List.disjoint_of_nodup_append hnd
      simp only [decorateForest] at h
      split at h
      · rename_i e1 hf
        simp only [Except.error.injEq] at h
        subst h
        exact decorateField_nodup none idx us f
          (fun t ht => hfresh t (by simp only [tagsF, List.mem_append]; exact Or.inl ht))
          hnd.of_append_left _ hf
      · rename_i idx1 us1 hf
        refine decorateField_nodup_forest idx1 us1 rest ?_ hnd.of_append_right _ h
        intro t ht
        have hk := decorateField_keys none idx us f (idx1, us1) hf t
        cases hq : (List.lookup t idx1).isSome
        · rfl
        · rcases hk.mp hq with hx | hx
          · rw [hfresh t (by simp only [tagsF, List.mem_append]; exact Or.inr ht)] at hx
            simp at hx
          · exact absurd ht (hdisj hx)

theorem decorateField_nodup_opts (idx : List (String × FTree))
    (us : List (String × UiField)) (os : FOptList)
    (hfresh : ∀ t ∈ tagsO os, (List.lookup t idx).isSome = false)
    (hnd : (tagsO os).Nodup) (e : FormError)
    (h : decorateOpts idx us os = .error e) : e = .missingType :=
  match os with
  | .nil => by
      simp only [decorateOpts] at h
      exact absurd h (by simp)
  | .cons (.mk oid odv ofields) rest => by
      rw [tagsO] at hnd
      have hdisj := List.disjoint_of_nodup_append hnd
      simp only [decorateOpts] at h
      split at h
      · rename_i e1 hf
        simp only [Except.error.injEq] at h
        subst h
        exact decorateField_nodup_forest idx us ofields
          (fun t ht => hfresh t (by simp only [tagsO, List.mem_append]; exact Or.inl ht))
          hnd.of_append_left _ hf
      · rename_i idx1 us1 hf
        refine decorateField_nodup_opts idx1 us1 rest ?_ hnd.of_append_right _ h
        intro t ht
        have hk := decorateField_keys_forest idx us ofields (idx1, us1) hf t
        cases hq : (List.lookup t idx1).isSome
        · rfl
        · rcases hk.mp hq with hx | hx
          · rw [hfresh t (by simp only [tagsO, List.mem_append]; exact Or.inr ht)] at hx
            simp at hx
          · exact absurd ht (hdisj hx)
end

theorem mem_tagsL_of_mem {t : String} {b : FTree} {L : List FTree}
    (hb : b ∈ L) (ht : t ∈ tagsT b) : t ∈ tagsL L := by
  simp only [tagsL, List.mem_flatten]
  exact ⟨tagsT b, List.mem_map_of_mem tagsT hb, ht⟩

theorem decorateFieldList_err_kind (L : List FTree) :
    ∀ idx us e, decorateFieldList idx us L = .error e → typedL L = true →
      ∃ t, e = .duplicateTag t := by
  induction L with
  | nil =>
      intro idx us e h _
      simp only [decorateFieldList] at h
      exact absurd h (by simp)
  | cons f rest ih =>
      intro idx us e h htyped
      simp only [typedL, List.all_cons, Bool.and_eq_true] at htyped
      simp only [decorateFieldList] at h
      split at h
      · rename_i e1 hf
        simp only [Except.error.injEq] at h
        subst h
        exact decorateField_err_kind none idx us f _ hf htyped.1
      · rename_i idx1 us1 hf
        exact ih idx1 us1 e h htyped.2

theorem decorateFieldList_keys (L : List FTree) :
    ∀ idx us out, decorateFieldList idx us L = .ok out →
      ∀ t, (List.lookup t out.1).isSome = true ↔
        ((List.lookup t idx).isSome = true ∨ t ∈ tagsL L) := by
  induction L with
  | nil =>
      intro idx us out h t
      simp only [decorateFieldList, Except.ok.injEq] at h
      rw [← h]
      simp [tagsL]
  | cons f rest ih =>
      intro idx us out h t
      simp only [decorateFieldList] at h
      split at h
      · exact absurd h (by simp)
      · rename_i idx1 us1 hf
        have h1 := decorateField_keys none idx us f (idx1, us1) hf t
        have h2 := ih idx1 us1 out h t
        simp only [tagsL, List.map_cons, List.flatten_cons, List.mem_append] at h2 ⊢
        rw [h2]
        simp only [h1, tagsL, List.mem_flatten]
        tauto

theorem decorateFieldList_seed (L : List FTree) :
    ∀ idx us t0, (List.lookup t0 idx).isSome = true → t0 ∈ tagsL L → typedL L = true →
      ∃ t, decorateFieldList idx us L = .error (.duplicateTag t) := by
  induction L with
  | nil =>
      intro idx us t0 _ hmem _
      simp [tagsL] at hmem
  | cons f rest ih =>
      intro idx us t0 hidx hmem htyped
      simp only [typedL, List.all_cons, Bool.and_eq_true] at htyped
      simp only [tagsL, List.map_cons, List.flatten_cons, List.mem_append] at hmem
      rcases hmem with hm | hm
      · obtain ⟨t, hf⟩ := decorateField_seed none idx us f t0 hidx hm htyped.1
        exact ⟨t, by simp [decorateFieldList, hf]⟩
      · cases hf : decorateField none idx us f with
        | error e =>
            obtain ⟨t, hte⟩ := decorateField_err_kind none idx us f e hf htyped.1
            subst hte
            exact ⟨t, by simp [decorateFieldList, hf]⟩
        | ok out =>
            have hidx1 := (decorateField_keys none idx us f out hf t0).mpr (Or.inl hidx)
            obtain ⟨t, hr⟩ := ih out.1 out.2 t0 hidx1 hm
              (by simpa [typedL] using htyped.2)
            obtain ⟨idx1, us1⟩ := out
            exact ⟨t, by simp [decorateFieldList, hf, hr]⟩

theorem decorateFieldList_untyped (L : List FTree) :
    ∀ idx us, typedL L = false →
      ∀ out, decorateFieldList idx us L ≠ .ok out := by
  induction L with
  | nil =>
      intro idx us htyped out
      simp [typedL] at htyped
  | cons f rest ih =>
      intro idx us htyped out hok
      simp only [decorateFieldList] at hok
      split at hok
      · exact absurd hok (by simp)
      · rename_i idx1 us1 hf
        cases hft : typedT f
        · exact decorateField_untyped none idx us f hft (idx1, us1) hf
        · cases hrt : typedL rest
          · exact ih idx1 us1 hrt out hok
          · rw [typedL] at hrt
            rw [typedL, List.all_cons, hft, hrt] at htyped
            simp at htyped

theorem decorateFieldList_nodup (L : List FTree) :
    ∀ idx us, (∀ t ∈ tagsL L, (List.lookup t idx).isSome = false) → (tagsL L).Nodup →
      ∀ e, decorateFieldList idx us L = .error e → e = .missingType := by
  induction L with
  | nil =>
      intro idx us _ _ e h
      simp only [decorateFieldList] at h
      exact absurd h (by simp)
  | cons f rest ih =>
      intro idx us hfresh hnd e h
      rw [tagsL, List.map_cons, List.flatten_cons] at hnd hfresh
      have hdisj := List.disjoint_of_nodup_append hnd
      simp only [decorateFieldList] at h
      split at h
      · rename_i e1 hf
        simp only [Except.error.injEq] at h
        subst h
        exact decorateField_nodup none idx us f
          (fun t ht => hfresh t (by simp only [List.mem_append]; exact Or.inl ht))
          hnd.of_append_left _ hf
      · rename_i idx1 us1 hf
        refine ih idx1 us1 ?_ (by simpa [tagsL] using hnd.of_append_right) e h
        intro t ht
        rw [tagsL] at ht
        have hk := decorateField_keys none idx us f (idx1, us1) hf t
        cases hq : (List.lookup t idx1).isSome
        · rfl
        · rcases hk.mp hq with hx | hx
          · rw [hfresh t (by simp only [List.mem_append]; exact Or.inr ht)] at hx
            simp at hx
          · exact absurd ht (hdisj hx)

theorem goodF_eq_list (fs : FForest) : goodF fs = fs.toList.all goodT :=
  match fs with
  | .nil => by simp [goodF, FForest.toList]
  | .cons f rest => by
      simp [goodF, FForest.toList, List.all_cons, goodF_eq_list rest]

theorem goodO_eq_list (os : FOptList) : goodO os = (optChildTrees os).all goodT :=
  match os with
  | .nil => by simp [goodO, optChildTrees]
  | .cons (.mk oid odv ofields) rest => by
      simp [goodO, optChildTrees, List.all_append, goodF_eq_list ofields, goodO_eq_list rest]

theorem goodT_node_eq (d : FNodeData) (cs : FForest) (os : FOptList) :
    goodT (.node d cs os) = goodTopB (cs.toList ++ optChildTrees os) := by
  simp only [goodT, goodTopB, List.all_append, goodF_eq_list, goodO_eq_list, Bool.and_assoc]

theorem typedF_eq_list (fs : FForest) : typedF fs = fs.toList.all typedT :=
  match fs with
  | .nil => by simp [typedF, FForest.toList]
  | .cons f rest => by
      simp [typedF, FForest.toList, List.all_cons, typedF_eq_list rest]

theorem typedO_eq_list (os : FOptList) : typedO os = (optChildTrees os).all typedT :=
  match os with
  | .nil => by simp [typedO, optChildTrees]
  | .cons (.mk oid odv ofields) rest => by
      simp [typedO, optChildTrees, List.all_append, typedF_eq_list ofields, typedO_eq_list rest]

theorem sizeL_append (l1 l2 : List FTree) : sizeL (l1 ++ l2) = sizeL l1 + sizeL l2 := by
  simp [sizeL]

theorem sizeL_toList (fs : FForest) : sizeL fs.toList = sizeF fs :=
  match fs with
  | .nil => by simp [sizeL, FForest.toList, sizeF]
  | .cons f rest => by
      simp only [FForest.toList, sizeL, List.map_cons, List.sum_cons, sizeF]
      rw [show (List.map sizeT rest.toList).sum = sizeL rest.toList from rfl, sizeL_toList rest]

theorem sizeL_optChildTrees (os : FOptList) : sizeL (optChildTrees os) = sizeO os :=
  match os with
  | .nil => by simp [sizeL, optChildTrees, sizeO]
  | .cons (.mk oid odv ofields) rest => by
      simp only [optChildTrees, sizeO, sizeL_append, sizeL_toList ofields,
        sizeL_optChildTrees rest]

theorem sizeT_pos (f : FTree) : 1 ≤ sizeT f :=
  match f with
  | .node d cs os => by
      rw [sizeT]
      omega

/-- With both entry guards passed, decorating one field is: decorate the
flat sequence of its children followed by its options' children, then
register the field itself. -/
theorem decorateField_unfold_ok (key : Option Nat) (idx : List (String × FTree))
    (us : List (String × UiField)) (d : FNodeData) (cs : FForest) (os : FOptList)
    (hdup : (List.lookup d.tag idx).isSome = false) (hnotype : d.ftype.isNone = false) :
    decorateField key idx us (.node d cs os) =
      match decorateFieldList idx (uiAfterKey key d.tag us) (cs.toList ++ optChildTrees os) with
      | .error e => .error e
      | .ok (idx2, us3) => .ok (setKey idx2 d.tag (.node d cs os), us3) := by
  rw [decorateFieldList_append, ← decorateForest_eq_list]
  simp only [decorateField, hdup, hnotype, Bool.false_eq_true, if_neg, not_false_eq_true]
  cases decorateForest idx (uiAfterKey key d.tag us) cs with
  | error e => rfl
  | ok out =>
      obtain ⟨idx1, us1⟩ := out
      show (match decorateOpts idx1 us1 os with
        | Except.error e => Except.error e
        | Except.ok (idx2, us3) => Except.ok (setKey idx2 d.tag (FTree.node d cs os), us3)) =
        (match decorateFieldList idx1 us1 (optChildTrees os) with
        | Except.error e => Except.error e
        | Except.ok (idx2, us3) => Except.ok (setKey idx2 d.tag (FTree.node d cs os), us3))
      rw [decorateOpts_eq_list]

theorem decListBadAux (N : Nat) :
    ∀ (L : List FTree) (idx : List (String × FTree)) (us : List (String × UiField)),
      sizeL L ≤ N → typedL L = true → goodTopB L = false →
      ∃ t, decorateFieldList idx us L = .error (.duplicateTag t) := by
  induction N with
  | zero =>
      intro L idx us hsz htyped hbad
      cases L with
      | nil => simp [goodTopB, pairwiseDisjB, typedL] at hbad
      | cons f rest =>
          exfalso
          have := sizeT_pos f
          simp only [sizeL, List.map_cons, List.sum_cons] at hsz
          omega
  | succ N ih =>
      intro L idx us hsz htyped hbad
      cases L with
      | nil => simp [goodTopB, pairwiseDisjB, typedL] at hbad
      | cons f rest =>
          simp only [typedL, List.all_cons, Bool.and_eq_true] at htyped
          obtain ⟨htf, htrest⟩ := htyped
          have htrest2 : typedL rest = true := htrest
          have hsz' : sizeL rest ≤ N := by
            have := sizeT_pos f
            simp only [sizeL, List.map_cons, List.sum_cons] at hsz
            simp only [sizeL]
            omega
          by_cases hgf : goodT f = true
          · by_cases hshare : rest.all (disjointTagsB f) = true
            · have hbadrest : goodTopB rest = false := by
                cases hq : goodTopB rest
                · rfl
                · exfalso
                  rw [goodTopB, Bool.and_eq_true] at hq
                  have : goodTopB (f :: rest) = true := by
                    rw [goodTopB, pairwiseDisjB]
                    simp [hshare, hgf, hq.1, hq.2, List.all_cons]
                  rw [this] at hbad
                  exact absurd hbad (by simp)
              cases hf : decorateField none idx us f with
              | error e =>
                  obtain ⟨t, hte⟩ := decorateField_err_kind none idx us f e hf htf
                  subst hte
                  exact ⟨t, by simp [decorateFieldList, hf]⟩
              | ok out =>
                  obtain ⟨t, hr⟩ := ih rest out.1 out.2 hsz' htrest2 hbadrest
                  obtain ⟨idx1, us1⟩ := out
                  exact ⟨t, by simp [decorateFieldList, hf, hr]⟩
            · have hex : ∃ b, b ∈ rest ∧ ∃ t0, t0 ∈ tagsT f ∧ t0 ∈ tagsT b := by
                cases hq : rest.all (disjointTagsB f)
                · rw [List.all_eq_false] at hq
                  obtain ⟨b, hb, hdisj⟩ := hq
                  refine ⟨b, hb, ?_⟩
                  have : disjointTagsB f b = false := by
                    cases hw : disjointTagsB f b
                    · rfl
                    · exact absurd hw hdisj
                  rw [disjointTagsB, List.all_eq_false] at this
                  obtain ⟨t0, ht0, hc⟩ := this
                  refine ⟨t0, ht0, ?_⟩
                  simp only [Bool.not_eq_true', Bool.not_eq_false] at hc
                  simpa using hc
                · exact absurd hq hshare
              obtain ⟨b, hb, t0, ht0f, ht0b⟩ := hex
              cases hf : decorateField none idx us f with
              | error e =>
                  obtain ⟨t, hte⟩ := decorateField_err_kind none idx us f e hf htf
                  subst hte
                  exact ⟨t, by simp [decorateFieldList, hf]⟩
              | ok out =>
                  have hidx1 : (List.lookup t0 out.1).isSome = true :=
                    (decorateField_keys none idx us f out hf t0).mpr (Or.inr ht0f)
                  obtain ⟨t, hr⟩ := decorateFieldList_seed rest out.1 out.2 t0 hidx1
                    (mem_tagsL_of_mem hb ht0b) htrest2
                  obtain ⟨idx1, us1⟩ := out
                  exact ⟨t, by simp [decorateFieldList, hf, hr]⟩
          · have hgf2 : goodT f = false := by
              cases hq : goodT f
              · rfl
              · exact absurd hq hgf
            have hferr : ∃ t, decorateField none idx us f = .error (.duplicateTag t) := by
              cases f with
              | node d cs os =>
                  by_cases hdup : (List.lookup d.tag idx).isSome = true
                  · exact ⟨d.tag, by simp [decorateField, hdup]⟩
                  · have hdup2 : (List.lookup d.tag idx).isSome = false := by
                      cases hq : (List.lookup d.tag idx).isSome
                      · rfl
                      · exact absurd hq hdup
                    simp only [typedT, Bool.and_eq_true] at htf
                    have hnotype : d.ftype.isNone = false := by
                      have h1 := htf.1.1
                      cases hft : d.ftype
                      · rw [hft] at h1; simp at h1
                      · simp [hft]
                    have htypedChild : typedL (cs.toList ++ optChildTrees os) = true := by
                      rw [typedL, List.all_append]
                      rw [← typedF_eq_list, ← typedO_eq_list]
                      simp [htf.1.2, htf.2]
                    have hbadChild : goodTopB (cs.toList ++ optChildTrees os) = false := by
                      rw [← goodT_node_eq d cs os]
                      exact hgf2
                    have hszChild : sizeL (cs.toList ++ optChildTrees os) ≤ N := by
                      rw [sizeL_append, sizeL_toList, sizeL_optChildTrees]
                      simp only [sizeL, List.map_cons, List.sum_cons, sizeT] at hsz
                      omega
                    obtain ⟨t, hlist⟩ := ih (cs.toList ++ optChildTrees os) idx
                      (uiAfterKey none d.tag us) hszChild htypedChild hbadChild
                    refine ⟨t, ?_⟩
                    rw [decorateField_unfold_ok none idx us d cs os hdup2 hnotype, hlist]
            obtain ⟨t, hf⟩ := hferr
            exact ⟨t, by simp [decorateFieldList, hf]⟩

/-- A flat field sequence that is fully typed but holds a repeated tag
between two fields neither of which is an ancestor of the other fails
decoration with a `DuplicateTagError`. -/
theorem decorateFieldList_bad (L : List FTree) (idx : List (String × FTree))
    (us : List (String × UiField)) (htyped : typedL L = true) (hbad : goodTopB L = false) :
    ∃ t, decorateFieldList idx us L = .error (.duplicateTag t) :=
  decListBadAux (sizeL L) L idx us (Nat.le_refl _) htyped hbad

/-- Counterexample to claim C8 at an explicit concrete input: in
`cex8Defn` the tag `t` is repeated in the decorated tree (it appears twice
in the tag sequence, so the sequence has duplicates), every field has a
type, and yet construction succeeds — no `DuplicateTagError` is raised,
because a field's own registration happens only after its children's, so a
repeat between a field and its own descendant goes undetected. -/
theorem claim8_counterexample :
    ¬ (tagsL (flattenSchema (sortSections [⟨0, [⟨cex8Forest⟩]⟩]))).Nodup ∧
      typedL (flattenSchema (sortSections [⟨0, [⟨cex8Forest⟩]⟩])) = true ∧
      Except.isOk (mkForm (some cex8Defn)) = true :=
  ⟨by decide, rfl, rfl⟩

/-- Claim C8, amended: construction fails synchronously — raising
`InvalidDefinitionError` when the definition or schema is missing,
`DuplicateTagError` for every definition (with all field types present) in
which a field tag is repeated between two fields neither of which is an
ancestor of the other (a field sharing a tag with its own descendant is
not detected, since the duplicate check runs before the field registers
itself and registration happens after its children), and
`MissingTypeError` when a field lacks a `type` while all tags are distinct
— and, construction being modelled as an `Except` value, any error aborts
it entirely, so no partially-built instance is returned. -/
theorem claim8_construction_errors_amended :
    (mkForm none = .error .invalidDefinition) ∧
    (∀ d : FormDefn, d.schema = none → mkForm (some d) = .error .invalidDefinition) ∧
    (∀ (d : FormDefn) (sch : Schema), d.schema = some sch →
      typedL (flattenSchema (sortSections sch.sections)) = true →
      goodTopB (flattenSchema (sortSections sch.sections)) = false →
      ∃ t, mkForm (some d) = .error (.duplicateTag t)) ∧
    (∀ (d : FormDefn) (sch : Schema), d.schema = some sch →
      (tagsL (flattenSchema (sortSections sch.sections))).Nodup →
      typedL (flattenSchema (sortSections sch.sections)) = false →
      mkForm (some d) = .error .missingType) := by
  refine ⟨rfl, ?_, ?_, ?_⟩
  · intro d h
    simp [mkForm, h]
  · intro d sch h htyped hbad
    obtain ⟨t, hlist⟩ := decorateFieldList_bad (flattenSchema (sortSections sch.sections)) []
      d.uiSchema htyped hbad
    refine ⟨t, ?_⟩
    simp only [mkForm, h]
    rw [decorateSections_eq_list, hlist]
  · intro d sch h hnd huntyped
    cases hdec : decorateFieldList [] d.uiSchema (flattenSchema (sortSections sch.sections)) with
    | ok out => exact absurd hdec (decorateFieldList_untyped _ _ _ huntyped out)
    | error e =>
        have he : e = .missingType :=
          decorateFieldList_nodup _ _ _ (fun t _ => by simp) hnd e hdec
        subst he
        simp only [mkForm, h]
        rw [decorateSections_eq_list, hdec]

/-- Witness for the amended claim C8 at concrete input: in `wDefn8` two
sibling fields share the tag `x` (and all types are present), so
construction fails with a `DuplicateTagError`. -/
theorem claim8_witness :
    ∃ t, mkForm (some wDefn8) = .error (.duplicateTag t) :=
  claim8_construction_errors_amended.2.2.1 wDefn8
    ⟨[⟨0, [⟨.cons (leafFld "x" (some .STRING)) (.cons (leafFld "x" (some .NUMBER)) .nil)⟩]⟩]⟩
    rfl (by decide) (by decide)

end FormEngine
